import Mathlib

/-!
Verification of the Mercator AI codebase scanner
(`src/skills/mercator-ai/scripts/scan-codebase.py`).

The development shallowly embeds the scanner: SHA-256 (modelling
`hashlib.sha256`), the truncated content/merkle hashing, the ignore-pattern
filter (`fnmatch`-style globbing), the directory walk with its mutable
accumulators rendered as explicit state threading, and the merkle diff.
-/

namespace Scan

/-! ## SHA-256 (models Python `hashlib.sha256`) -/

/-- Truncation of a natural number to a 32-bit word. -/
def w32 (x : Nat) : Nat := x % 4294967296

/-- Rotate a 32-bit word right by `n` bits. -/
def rotr (n x : Nat) : Nat := w32 ((x <<< (32 - n)) ||| (x >>> n))

/-- Compression function Sigma0. -/
def bigSigma0 (x : Nat) : Nat := (rotr 2 x) ^^^ (rotr 13 x) ^^^ (rotr 22 x)

/-- Compression function Sigma1. -/
def bigSigma1 (x : Nat) : Nat := (rotr 6 x) ^^^ (rotr 11 x) ^^^ (rotr 25 x)

/-- Message-schedule function sigma0. -/
def smallSigma0 (x : Nat) : Nat := (rotr 7 x) ^^^ (rotr 18 x) ^^^ (x >>> 3)

/-- Message-schedule function sigma1. -/
def smallSigma1 (x : Nat) : Nat := (rotr 17 x) ^^^ (rotr 19 x) ^^^ (x >>> 10)

/-- Round constants of SHA-256 (FIPS 180-4), written in decimal. -/
def K256 : List Nat :=
  [1116352408, 1899447441, 3049323471, 3921009573, 961987163, 1508970993,
   2453635748, 2870763221, 3624381080, 310598401, 607225278, 1426881987,
   1925078388, 2162078206, 2614888103, 3248222580, 3835390401, 4022224774,
   264347078, 604807628, 770255983, 1249150122, 1555081692, 1996064986,
   2554220882, 2821834349, 2952996808, 3210313671, 3336571891, 3584528711,
   113926993, 338241895, 666307205, 773529912, 1294757372, 1396182291,
   1695183700, 1986661051, 2177026350, 2456956037, 2730485921, 2820302411,
   3259730800, 3345764771, 3516065817, 3600352804, 4094571909, 275423344,
   430227734, 506948616, 659060556, 883997877, 958139571, 1322822218,
   1537002063, 1747873779, 1955562222, 2024104815, 2227730452, 2361852424,
   2428436474, 2756734187, 3204031479, 3329325298]

/-- Hash state: eight 32-bit words. -/
structure H8 where
  a : Nat
  b : Nat
  c : Nat
  d : Nat
  e : Nat
  f : Nat
  g : Nat
  h : Nat
deriving DecidableEq

/-- Initial hash value of SHA-256 (FIPS 180-4), written in decimal. -/
def IV : H8 :=
  ⟨1779033703, 3144134277, 1013904242, 2773480762,
   1359893119, 2600822924, 528734635, 1541459225⟩

/-- Message-schedule extension step, appending one of the words 16..63. -/
def schedStep (w : List Nat) : List Nat :=
  let n := w.length
  w ++ [w32 (smallSigma1 (w.getD (n - 2) 0) + w.getD (n - 7) 0 +
             smallSigma0 (w.getD (n - 15) 0) + w.getD (n - 16) 0)]

/-- Extend the 16 words of a block to the 64 schedule words. -/
def schedule (w16 : List Nat) : List Nat :=
  (List.range 48).foldl (fun acc _ => schedStep acc) w16

/-- One compression round of SHA-256. -/
def round1 (s : H8) (kw : Nat × Nat) : H8 :=
  let t1 := w32 (s.h + bigSigma1 s.e + ((s.e &&& s.f) ^^^ ((4294967295 - s.e) &&& s.g)) + kw.1 + kw.2)
  let t2 := w32 (bigSigma0 s.a + ((s.a &&& s.b) ^^^ (s.a &&& s.c) ^^^ (s.b &&& s.c)))
  ⟨w32 (t1 + t2), s.a, s.b, s.c, w32 (s.d + t1), s.e, s.f, s.g⟩

/-- Compress one 16-word block into the chaining state. -/
def compress (h0 : H8) (w16 : List Nat) : H8 :=
  let w := schedule w16
  let s := (K256.zip w).foldl round1 h0
  ⟨w32 (h0.a + s.a), w32 (h0.b + s.b), w32 (h0.c + s.c), w32 (h0.d + s.d),
   w32 (h0.e + s.e), w32 (h0.f + s.f), w32 (h0.g + s.g), w32 (h0.h + s.h)⟩

/-- Big-endian 8-byte encoding of the bit length. -/
def be64 (n : Nat) : List Nat :=
  [(n >>> 56) % 256, (n >>> 48) % 256, (n >>> 40) % 256, (n >>> 32) % 256,
   (n >>> 24) % 256, (n >>> 16) % 256, (n >>> 8) % 256, n % 256]

/-- SHA-256 padding: a 0x80 byte, zero bytes, then the 64-bit message bit length. -/
def sha256pad (msg : List Nat) : List Nat :=
  let z := (119 - (msg.length % 64)) % 64
  msg ++ [128] ++ List.replicate z 0 ++ be64 (8 * msg.length)

/-- Combine four bytes into a big-endian 32-bit word. -/
def word4 : List Nat → Nat
  | b0 :: b1 :: b2 :: b3 :: _ => ((b0 * 256 + b1) * 256 + b2) * 256 + b3
  | _ => 0

/-- Split padded bytes (length a multiple of 64) into 16-word blocks. -/
def toBlocks (bytes : List Nat) : List (List Nat) :=
  (List.range (bytes.length / 64)).map
    (fun b => (List.range 16).map (fun i => word4 (bytes.drop (64 * b + 4 * i))))

/-- SHA-256 of a byte list: the final eight-word state. -/
def sha256 (msg : List Nat) : H8 :=
  (toBlocks (sha256pad msg)).foldl compress IV

/-- Lower-case hexadecimal digit. -/
def hexChar (n : Nat) : Char :=
  if n < 10 then Char.ofNat (48 + n) else Char.ofNat (87 + n)

/-- Eight-hex-digit big-endian rendering of a 32-bit word. -/
def hex8 (w : Nat) : List Char :=
  [hexChar ((w >>> 28) &&& 15), hexChar ((w >>> 24) &&& 15), hexChar ((w >>> 20) &&& 15),
   hexChar ((w >>> 16) &&& 15), hexChar ((w >>> 12) &&& 15), hexChar ((w >>> 8) &&& 15),
   hexChar ((w >>> 4) &&& 15), hexChar (w &&& 15)]

/-- Models Python `hashlib.sha256(bytes).hexdigest()`. -/
def sha256hexdigest (msg : List Nat) : String :=
  let s := sha256 msg
  ⟨hex8 s.a ++ hex8 s.b ++ hex8 s.c ++ hex8 s.d ++ hex8 s.e ++ hex8 s.f ++ hex8 s.g ++ hex8 s.h⟩

set_option maxRecDepth 100000 in
/-- Validation of the SHA-256 model on the FIPS 180-4 test vector for "abc". -/
theorem sha256_test_vector_abc :
    sha256hexdigest [97, 98, 99] =
      "ba7816bf8f01cfea414140de5dae2223b00361a396177a9cb410ff61f20015ad" := by
  decide

/-! ## Hash truncation and merkle aggregation -/

/-- Models the Python string slice `s[:n]`. -/
def strTake (s : String) (n : Nat) : String := ⟨s.data.take n⟩

/-- Models `compute_hash` (scan-codebase.py line 126): SHA-256 of the content,
first 12 hex characters. -/
def compute_hash (content : List Nat) : String :=
  strTake (sha256hexdigest content) 12

/-- Stable insertion of an element into an ascending list: it goes before the
first element it compares less-or-equal to, hence before any equal element
already present — so inserting the earlier-positioned element of a tie first
preserves the input order of ties. -/
def insertSorted (le : α → α → Bool) (a : α) : List α → List α
  | [] => [a]
  | b :: bs => if le a b then a :: b :: bs else b :: insertSorted le a bs

/-- Stable ascending sort by insertion; extensionally equal to Python
`sorted` (a stable ascending sort) for any total preorder comparison. -/
def stableSort (le : α → α → Bool) : List α → List α
  | [] => []
  | a :: as => insertSorted le a (stableSort le as)

/-- Lexicographic comparison of character lists by code point. -/
def listLe : List Char → List Char → Bool
  | [], _ => true
  | _ :: _, [] => false
  | a :: as, b :: bs =>
    if a < b then true
    else if b < a then false
    else listLe as bs

/-- Models the Python string order `a <= b` (lexicographic by code point);
proved below to agree with the `≤` of `String`. -/
def pyStrLe (a b : String) : Bool := listLe a.data b.data

/-- The executable comparison agrees with the order on `String`. -/
theorem pyStrLe_iff (a b : String) : pyStrLe a b = true ↔ a ≤ b := by
  have hba : (b < a) ↔ List.lt b.data a.data := by
    rw [String.lt_iff_toList_lt]
    exact (List.lt_iff_lex_lt b.data a.data).symm
  have hle : (a ≤ b) ↔ ¬ b < a := Iff.rfl
  rw [hle, hba]
  show listLe a.data b.data = true ↔ ¬ List.lt b.data a.data
  have : ∀ (as bs : List Char), listLe as bs = true ↔ ¬ List.lt bs as := by
    intro as
    induction as with
    | nil =>
      intro bs
      simp only [listLe, true_iff]
      intro h
      cases h
    | cons a as ih =>
      intro bs
      cases bs with
      | nil =>
        simp only [listLe, Bool.false_eq_true, false_iff, not_not]
        exact List.lt.nil a as
      | cons b bs =>
        rw [listLe]
        by_cases hab : a < b
        · rw [if_pos hab]
          simp only [true_iff]
          intro h
          cases h with
          | head _ _ h' => exact absurd hab (lt_asymm h')
          | tail h₁ h₂ h₃ => exact h₂ hab
        · rw [if_neg hab]
          by_cases hba : b < a
          · rw [if_pos hba]
            simp only [Bool.false_eq_true, false_iff, not_not]
            exact List.lt.head bs as hba
          · rw [if_neg hba]
            rw [ih bs]
            constructor
            · intro h hlt
              cases hlt with
              | head _ _ h' => exact hba h'
              | tail h₁ h₂ h₃ => exact h h₃
            · intro h hlt
              exact h (List.lt.tail hba hab hlt)
  exact this a.data b.data

/-- Models Python `sorted` on a list of strings: stable sort, ascending in the
lexicographic (code-point) order. -/
def pySorted (l : List String) : List String :=
  stableSort pyStrLe l

/-- Insertion produces a permutation of consing. -/
theorem insertSorted_perm (le : α → α → Bool) (a : α) (l : List α) :
    (insertSorted le a l).Perm (a :: l) := by
  induction l with
  | nil => rfl
  | cons b bs ih =>
    rw [insertSorted]
    by_cases h : le a b = true
    · simp [h]
    · simp only [h, if_false]
      exact (ih.cons b).trans (List.Perm.swap a b bs)

/-- The sort is a permutation of the input. -/
theorem stableSort_perm (le : α → α → Bool) (l : List α) :
    (stableSort le l).Perm l := by
  induction l with
  | nil => rfl
  | cons a as ih =>
    exact (insertSorted_perm le a (stableSort le as)).trans (ih.cons a)

/-- Insertion preserves sortedness for a transitive, total comparison. -/
theorem insertSorted_pairwise {le : α → α → Bool}
    (htr : ∀ a b c, le a b = true → le b c = true → le a c = true)
    (hto : ∀ a b, le a b = true ∨ le b a = true)
    (a : α) {l : List α} (hl : l.Pairwise (le · · = true)) :
    (insertSorted le a l).Pairwise (le · · = true) := by
  induction l with
  | nil => simp [insertSorted]
  | cons b bs ih =>
    rw [insertSorted]
    rcases List.pairwise_cons.mp hl with ⟨hb, hbs⟩
    by_cases h : le a b = true
    · rw [if_pos h]
      refine List.pairwise_cons.mpr ⟨?_, hl⟩
      intro x hx
      rcases List.mem_cons.mp hx with rfl | hx
      · exact h
      · exact htr a b x h (hb x hx)
    · rw [if_neg h]
      refine List.pairwise_cons.mpr ⟨?_, ih hbs⟩
      intro x hx
      rcases List.mem_cons.mp ((insertSorted_perm le a bs).mem_iff.mp hx) with rfl | hx'
      · rcases hto x b with h' | h'
        · exact absurd h' h
        · exact h'
      · exact hb x hx'

/-- The sort is sorted, for a transitive, total comparison. -/
theorem stableSort_pairwise {le : α → α → Bool}
    (htr : ∀ a b c, le a b = true → le b c = true → le a c = true)
    (hto : ∀ a b, le a b = true ∨ le b a = true) (l : List α) :
    (stableSort le l).Pairwise (le · · = true) := by
  induction l with
  | nil => simp [stableSort]
  | cons a as ih => exact insertSorted_pairwise htr hto a ih

/-- UTF-8 encoding of one character. -/
def utf8Char (c : Char) : List Nat :=
  let n := c.toNat
  if n < 128 then [n]
  else if n < 2048 then [192 ||| (n >>> 6), 128 ||| (n &&& 63)]
  else if n < 65536 then
    [224 ||| (n >>> 12), 128 ||| ((n >>> 6) &&& 63), 128 ||| (n &&& 63)]
  else
    [240 ||| (n >>> 18), 128 ||| ((n >>> 12) &&& 63), 128 ||| ((n >>> 6) &&& 63),
     128 ||| (n &&& 63)]

/-- Models Python `str.encode()`: UTF-8 bytes of a string. -/
def strEncode (s : String) : List Nat :=
  s.data.foldr (fun c acc => utf8Char c ++ acc) []

/-- Models `compute_merkle_hash` (scan-codebase.py line 131): join the child
hashes sorted as strings, and hash the UTF-8 bytes of the concatenation with
the same truncated-SHA-256 scheme. -/
def compute_merkle_hash (child_hashes : List String) : String :=
  let combined := String.join (pySorted child_hashes)
  strTake (sha256hexdigest (strEncode combined)) 12

/-! ## Sorting lemmas -/

/-- Result of `pySorted` is pairwise ≤. -/
theorem pySorted_sorted (l : List String) : List.Sorted (· ≤ ·) (pySorted l) := by
  have h := @stableSort_pairwise String pyStrLe
    (fun a b c hab hbc =>
      (pyStrLe_iff a c).mpr (le_trans ((pyStrLe_iff a b).mp hab) ((pyStrLe_iff b c).mp hbc)))
    (fun a b => by
      rw [pyStrLe_iff, pyStrLe_iff]
      exact le_total a b)
    l
  exact h.imp (fun hab => (pyStrLe_iff _ _).mp hab)

/-- Result of `pySorted` is a permutation of the input. -/
theorem pySorted_perm (l : List String) : (pySorted l).Perm l :=
  stableSort_perm _ l

/-- Sorting is invariant under permutations of the input. -/
theorem pySorted_congr {l l' : List String} (h : l.Perm l') :
    pySorted l = pySorted l' :=
  List.eq_of_perm_of_sorted
    (((pySorted_perm l).trans h).trans (pySorted_perm l').symm)
    (pySorted_sorted l) (pySorted_sorted l')

/-! ## Claims C1 and C8 -/

/-- C1: `compute_merkle_hash` hashes the concatenation of the child-hash list
sorted lexicographically by hash value with the truncated-SHA-256 scheme of
`compute_hash`; consequently it is invariant under permutations of its input,
so a directory hash depends only on the multiset of child hashes, never on
names or traversal order. -/
theorem merkle_hash_order_independent (l l' : List String) (hp : l.Perm l') :
    compute_merkle_hash l = compute_merkle_hash l'
    ∧ compute_merkle_hash l = compute_hash (strEncode (String.join (pySorted l)))
    ∧ List.Sorted (· ≤ ·) (pySorted l)
    ∧ (pySorted l).Perm l := by
  refine ⟨?_, rfl, pySorted_sorted l, pySorted_perm l⟩
  unfold compute_merkle_hash
  rw [pySorted_congr hp]

/-- Witness for C1 at a concrete permutation. -/
theorem merkle_hash_order_independent_witness :
    List.Perm ["b", "a"] ["a", "b"]
    ∧ compute_merkle_hash ["b", "a"] = compute_merkle_hash ["a", "b"] := by
  have hp : List.Perm ["b", "a"] ["a", "b"] := by decide
  exact ⟨hp, (merkle_hash_order_independent ["b", "a"] ["a", "b"] hp).1⟩

/-- Length of the hex digest is 64 characters. -/
theorem sha256hexdigest_length (msg : List Nat) :
    (sha256hexdigest msg).data.length = 64 := by
  simp [sha256hexdigest, hex8]

/-- A hex digit rendered from a nibble lies in the hex alphabet. -/
theorem hexChar_mem (n : Nat) (h : n ≤ 15) :
    hexChar n ∈ ("0123456789abcdef" : String).data := by
  interval_cases n <;> decide

/-- Characters of `hex8` lie in the hex alphabet. -/
theorem hex8_mem (w : Nat) (c : Char) (hc : c ∈ hex8 w) :
    c ∈ ("0123456789abcdef" : String).data := by
  simp only [hex8, List.mem_cons, List.not_mem_nil, or_false] at hc
  rcases hc with h | h | h | h | h | h | h | h <;>
    (subst h; exact hexChar_mem _ (le_trans Nat.and_le_right (by norm_num)))

/-- C8: `compute_hash` returns exactly the first 12 characters of the SHA-256
hex digest (so it has length 12 and consists of hex digits), and
`compute_merkle_hash` applies the same scheme to the concatenated sorted
input. -/
theorem compute_hash_truncated_sha256 (b : List Nat) (l : List String) :
    compute_hash b = strTake (sha256hexdigest b) 12
    ∧ (compute_hash b).length = 12
    ∧ (∀ c ∈ (compute_hash b).data, c ∈ ("0123456789abcdef" : String).data)
    ∧ compute_merkle_hash l = compute_hash (strEncode (String.join (pySorted l))) := by
  refine ⟨rfl, ?_, ?_, rfl⟩
  · show ((sha256hexdigest b).data.take 12).length = 12
    rw [List.length_take, sha256hexdigest_length]
    decide
  · intro c hc
    simp only [compute_hash, strTake] at hc
    have : c ∈ (sha256hexdigest b).data := List.mem_of_mem_take hc
    simp only [sha256hexdigest, List.mem_append] at this
    rcases this with ((((((h | h) | h) | h) | h) | h) | h) | h <;> exact hex8_mem _ _ h

/-! ## String helpers over the character-list model -/

/-- Membership of a character, modelling Python `c in s`. -/
def strHas (s : String) (c : Char) : Bool := s.data.contains c

/-- Models Python `s.startswith(pre)`. -/
def strStarts (s pre : String) : Bool := pre.data.isPrefixOf s.data

/-- Models Python `s.endswith (suf)`. -/
def strEnds (s suf : String) : Bool := suf.data.isSuffixOf s.data

/-- Models Python `s.lower()` (ASCII case folding). -/
def strLower (s : String) : String := ⟨s.data.map Char.toLower⟩

/-! ## Glob matching (models Python `fnmatch.fnmatch` on POSIX) -/

/-- Tokens of a glob pattern. -/
inductive GTok where
  | lit (c : Char)
  | any
  | star
  | cls (neg : Bool) (items : List Char)

/-- Match one character against the body of a `[...]` class
(`a-b` ranges, otherwise literal members). -/
def classMatch : List Char → Char → Bool
  | a :: '-' :: b :: rest, c => (a ≤ c && c ≤ b) || classMatch rest c
  | a :: rest, c => a == c || classMatch rest c
  | [], _ => false

/-- Scan forward to the closing `]` of a class, returning the body and the
rest of the pattern. -/
def scanClass : List Char → Option (List Char × List Char)
  | [] => none
  | ']' :: cs => some ([], cs)
  | c :: cs => (scanClass cs).map (fun p => (c :: p.1, p.2))

/-- Parse a `[...]` class body after the opening bracket: a leading `!`
negates, a `]` in first position is a literal member. -/
def parseClass (cs : List Char) : Option (Bool × List Char × List Char) :=
  match cs with
  | '!' :: ']' :: t => (scanClass t).map (fun p => (true, ']' :: p.1, p.2))
  | '!' :: t => (scanClass t).map (fun p => (true, p.1, p.2))
  | ']' :: t => (scanClass t).map (fun p => (false, ']' :: p.1, p.2))
  | t => (scanClass t).map (fun p => (false, p.1, p.2))

/-- Tokenize a glob pattern; the fuel (initially the pattern length, an upper
bound on the number of tokens) keeps the recursion structural. An unclosed
`[` is a literal, as in `fnmatch.translate`. -/
def lexGlobF : Nat → List Char → List GTok
  | 0, _ => []
  | _ + 1, [] => []
  | fuel + 1, '*' :: cs => .star :: lexGlobF fuel cs
  | fuel + 1, '?' :: cs => .any :: lexGlobF fuel cs
  | fuel + 1, '[' :: cs =>
    (match parseClass cs with
     | some (neg, items, rest) => .cls neg items :: lexGlobF fuel rest
     | none => .lit '[' :: lexGlobF fuel cs)
  | fuel + 1, c :: cs => .lit c :: lexGlobF fuel cs

/-- Tokenize a glob pattern. -/
def lexGlob (cs : List Char) : List GTok := lexGlobF cs.length cs

/-- Match a tokenized glob against a whole string; `*` matches any sequence
of characters (including separators), exactly as `fnmatch` translates it. -/
def gmatch : List GTok → List Char → Bool
  | [], s => s.isEmpty
  | .star :: ps, s => s.tails.any (fun t => gmatch ps t)
  | .any :: _, [] => false
  | .any :: ps, _ :: s => gmatch ps s
  | .cls _ _ :: _, [] => false
  | .cls neg items :: ps, c :: s => (classMatch items c != neg) && gmatch ps s
  | .lit _ :: _, [] => false
  | .lit a :: ps, c :: s => a == c && gmatch ps s

/-- Models `fnmatch.fnmatch(name, pat)` (POSIX `normcase` is the identity). -/
def fnmatch (name pat : String) : Bool := gmatch (lexGlob pat.data) name.data

/-! ## PathFilter -/

/-- The built-in `DEFAULT_IGNORE` set (scan-codebase.py lines 43-61). -/
def DEFAULT_IGNORE : List String :=
  [".git", ".svn", ".hg", "node_modules", "__pycache__", ".pytest_cache",
   ".mypy_cache", ".ruff_cache", "venv", ".venv", "env", ".env", "dist",
   "build", ".next", ".nuxt", ".output", "coverage", ".coverage", ".nyc_output",
   "target", "vendor", ".bundle", ".cargo",
   ".DS_Store", "Thumbs.db", "*.pyc", "*.pyo", "*.so", "*.dylib", "*.dll",
   "*.exe", "*.o", "*.a", "*.lib", "*.class", "*.jar", "*.war", "*.egg",
   "*.whl", "*.lock", "package-lock.json", "yarn.lock", "pnpm-lock.yaml",
   "bun.lockb", "Cargo.lock", "poetry.lock", "Gemfile.lock", "composer.lock",
   "*.png", "*.jpg", "*.jpeg", "*.gif", "*.ico", "*.svg", "*.webp",
   "*.mp3", "*.mp4", "*.wav", "*.avi", "*.mov", "*.pdf", "*.zip",
   "*.tar", "*.gz", "*.rar", "*.7z", "*.woff", "*.woff2", "*.ttf",
   "*.eot", "*.otf",
   "*.min.js", "*.min.css", "*.map", "*.chunk.js", "*.bundle.js"]

/-- Models `matches_pattern` (lines 77-96): gitignore-style matching of an
entry (its basename `name`, kind `isDir`, and root-relative path `rel`)
against one pattern. -/
def matches_pattern (name : String) (isDir : Bool) (rel : String)
    (pattern : String) : Bool :=
  if strStarts pattern "!" then false
  else if strEnds pattern "/" && !isDir then false
  else
    let p1 := if strEnds pattern "/" then (⟨pattern.data.dropLast⟩ : String) else pattern
    if strHas p1 '/' then
      let p2 := if strStarts p1 "/" then (⟨p1.data.drop 1⟩ : String) else p1
      fnmatch rel p2 || fnmatch rel (p2 ++ "/**")
    else fnmatch name p1

/-- Models `should_ignore` (lines 99-115): built-in set first (glob match on
the basename for wildcard patterns, exact name otherwise), then the root
gitignore patterns. -/
def should_ignore (name : String) (isDir : Bool) (rel : String)
    (gitignore_patterns : List String) : Bool :=
  DEFAULT_IGNORE.any (fun pattern =>
    if strHas pattern '*' then fnmatch name pattern else name == pattern)
  || gitignore_patterns.any (fun pattern => matches_pattern name isDir rel pattern)

/-- ASCII whitespace stripped by Python `str.strip()`. -/
def isPySpace (c : Char) : Bool :=
  c.toNat == 32 || (9 ≤ c.toNat && c.toNat ≤ 13)

/-- Models Python `s.strip()`. -/
def strStrip (s : String) : String :=
  ⟨((s.data.dropWhile isPySpace).reverse.dropWhile isPySpace).reverse⟩

/-- Split a string at newline characters. -/
def splitNl (s : String) : List String :=
  (s.data.splitOnP (fun c => c == '\n')).map (fun l => (⟨l⟩ : String))

/-- Models `parse_gitignore` (lines 64-74): the stripped, non-empty,
non-comment lines of the root `.gitignore`; `none` stands for an absent file
(the file lookup and text decoding are filesystem I/O outside the model). -/
def parse_gitignore (content : Option String) : List String :=
  match content with
  | none => []
  | some text =>
    ((splitNl text).map strStrip).filter
      (fun l => !l.data.isEmpty && !strStarts l "#")

/-! ## Filesystem model and TreeWalker -/

/-- A filesystem entry. For a `file`, `size` is `stat().st_size`, `isText` is
the verdict of the `is_text_file` classifier (text-vs-binary classification
is an external collaborator per spec §1), and `content` is the outcome of
`open` + `read` — an error message when reading raises. A `dirDenied` is a
directory whose `iterdir` raises `PermissionError`; a `dir` carries its
listing. -/
inductive FSEntry where
  | file (name : String) (size : Nat) (isText : Bool) (content : Except String (List Nat))
  | dirDenied (name : String)
  | dir (name : String) (entries : List FSEntry)

/-- Basename of an entry, modelling `path.name`. -/
def entryName : FSEntry → String
  | .file n .. => n
  | .dirDenied n => n
  | .dir n _ => n

/-- Models `path.is_dir()`. -/
def entryIsDir : FSEntry → Bool
  | .file .. => false
  | _ => true

/-- The traversal sort key of line 228: directories before files, then
case-insensitive name, compared as Python compares tuples. -/
def childLe (a b : FSEntry) : Bool :=
  let ka : Nat := if entryIsDir a then 0 else 1
  let kb : Nat := if entryIsDir b then 0 else 1
  ka < kb || (ka == kb && pyStrLe (strLower (entryName a)) (strLower (entryName b)))

mutual
/-- Recursively sort every directory listing with the traversal key of
line 228. Sorting the whole tree up front is equivalent to the per-directory
`sorted(current.iterdir(), key=...)` inside `walk`, because the key reads
only the kind and basename of each entry, which sorting a child's own listing
does not change. -/
def sortFS : FSEntry → FSEntry
  | .file n s t c => .file n s t c
  | .dirDenied n => .dirDenied n
  | .dir n es => .dir n (stableSort childLe (sortFSL es))

/-- Apply `sortFS` to each entry of a listing. -/
def sortFSL : List FSEntry → List FSEntry
  | [] => []
  | e :: es => sortFS e :: sortFSL es
end

/-- One element of the `files` accumulator (line 271). -/
structure FileRec where
  path : String
  tokens : Nat
  size_bytes : Nat
  hash : String
deriving DecidableEq

/-- One element of the `skipped` accumulator; `size_bytes`/`tokens` model the
extra keys of the skip dictionaries at lines 252 and 268. -/
structure SkipRec where
  path : String
  reason : String
  size_bytes : Option Nat
  tokens : Option Nat
deriving DecidableEq

/-- A value of the `merkle_tree` mapping: a file node (line 278) or a
directory node (line 240). -/
inductive TNode where
  | fileN (hash : String) (tokens : Nat)
  | dirN (hash : String) (children : List String)
deriving DecidableEq

/-- Hash field of a tree node. -/
def TNode.hashOf : TNode → String
  | .fileN h _ => h
  | .dirN h _ => h

/-- The mutable accumulators of `scan_directory` threaded explicitly. -/
structure ScanState where
  files : List FileRec
  directories : List String
  skipped : List SkipRec
  total_tokens : Nat
  tree : List (String × TNode)
deriving DecidableEq

/-- Initial accumulator state. -/
def ScanState.empty : ScanState := ⟨[], [], [], 0, []⟩

/-- Scan parameters: the token ceiling, and as `tokensOf` the composite
`count_tokens(bytes.decode("utf-8", errors="ignore"), encoding)` — the
tiktoken encoding is an external collaborator (spec §6), so the byte-to-count
function is a parameter. `gitignore_patterns` is `parse_gitignore`'s result. -/
structure ScanConfig where
  max_file_tokens : Nat
  tokensOf : List Nat → Nat
  gitignore_patterns : List String

/-- Root-relative path of a child, modelling `str(entry.relative_to(root))`. -/
def childRel (parentRel name : String) : String :=
  if parentRel == "." then name else parentRel ++ "/" ++ name

/-- Python truthiness of `child_hash` at line 231: not `None` and not empty. -/
def truthy : Option String → Bool
  | some s => !s.data.isEmpty
  | none => false

mutual
/-- Models `walk` (lines 211-291) on a pre-sorted tree: returns the merkle
hash for the node (`none` = no hash) and the updated accumulators. -/
def walk (cfg : ScanConfig) : FSEntry → String → ScanState → Option String × ScanState
  | e, rel, st =>
    if should_ignore (entryName e) (entryIsDir e) rel cfg.gitignore_patterns then (none, st)
    else
      match e with
      | .dirDenied _ =>
        let st1 := if rel != "." then { st with directories := st.directories ++ [rel] } else st
        (none, { st1 with skipped := st1.skipped ++ [⟨rel, "permission_denied", none, none⟩] })
      | .dir _ es =>
        let st1 := if rel != "." then { st with directories := st.directories ++ [rel] } else st
        let res := walkList cfg es rel st1
        if res.1.isEmpty then (none, res.2.2)
        else
          let dir_hash := compute_merkle_hash res.1
          (some dir_hash,
           { res.2.2 with tree := res.2.2.tree ++
               [((if rel != "." then rel else "/"), .dirN dir_hash res.2.1)] })
      | .file _ size isText content =>
        if size > 1000000 then
          (none, { st with skipped := st.skipped ++ [⟨rel, "too_large", some size, none⟩] })
        else if !isText then
          (none, { st with skipped := st.skipped ++ [⟨rel, "binary", none, none⟩] })
        else
          match content with
          | .error msg =>
            (none, { st with skipped := st.skipped ++ [⟨rel, "read_error: " ++ msg, none, none⟩] })
          | .ok bytes =>
            let file_hash := compute_hash bytes
            let tokens := cfg.tokensOf bytes
            if tokens > cfg.max_file_tokens then
              (none, { st with skipped := st.skipped ++ [⟨rel, "too_many_tokens", none, some tokens⟩] })
            else
              (some file_hash,
               { st with
                   files := st.files ++ [⟨rel, tokens, size, file_hash⟩],
                   tree := st.tree ++ [(rel, .fileN file_hash tokens)],
                   total_tokens := st.total_tokens + tokens })

/-- Models the `for entry in entries` loop (lines 229-233): returns the
collected `child_hashes` and `child_paths` and the threaded state. -/
def walkList (cfg : ScanConfig) : List FSEntry → String → ScanState →
    List String × List String × ScanState
  | [], _, st => ([], [], st)
  | e :: es, parentRel, st =>
    let r := childRel parentRel (entryName e)
    let res := walk cfg e r st
    let rest := walkList cfg es parentRel res.2
    match res.1 with
    | some h =>
      if h.data.isEmpty then rest
      else (h :: rest.1, r :: rest.2.1, rest.2.2)
    | none => rest
end

/-- The value returned by `scan_directory` (lines 295-306); `root_hash` and
`tree` flatten the nested `merkle` dictionary, and the echoed absolute `root`
path string is external I/O left out of the model. -/
structure ScanResult where
  files : List FileRec
  directories : List String
  total_tokens : Nat
  total_files : Nat
  skipped : List SkipRec
  root_hash : String
  tree : List (String × TNode)
deriving DecidableEq

/-- Models `scan_directory` (lines 185-306): walk the root (each listing
visited in sorted order, here pre-sorted by `sortFS`) and assemble the
result; `root_hash or ""` maps a falsy hash to the empty string. -/
def scan_directory (cfg : ScanConfig) (root : FSEntry) : ScanResult :=
  let res := walk cfg (sortFS root) "." ScanState.empty
  { files := res.2.files
    directories := res.2.directories
    total_tokens := res.2.total_tokens
    total_files := res.2.files.length
    skipped := res.2.skipped
    root_hash :=
      match res.1 with
      | some h => if h.data.isEmpty then "" else h
      | none => ""
    tree := res.2.tree }

/-! ## SnapshotDiffer -/

/-- A loaded merkle-tree entry: the JSON dictionary fields that can occur;
`none` models an absent key. -/
structure MerkleNode where
  hash : Option String
  type : Option String
  children : Option (List String)
  tokens : Option Nat
deriving DecidableEq

/-- A loaded merkle tree: a path-to-entry dictionary. -/
abbrev MTree := List (String × MerkleNode)

/-- Key set of a tree, modelling `tree.keys()`. -/
def mkeys (t : MTree) : List String := t.map Prod.fst

/-- Dictionary access, modelling `tree[path]`. -/
def mlookup (t : MTree) (p : String) : Option MerkleNode := t.lookup p

/-- Models `tree[path].get("hash")`: `None` when the path or the key is
absent. -/
def getHash (t : MTree) (p : String) : Option String :=
  (mlookup t p).bind (fun n => n.hash)

/-- The dictionary returned by `diff_merkle` (lines 334-340). -/
structure DiffResult where
  changed : List String
  added : List String
  removed : List String
  unchanged : List String
  has_changes : Bool
deriving DecidableEq

/-- Models `diff_merkle` (lines 309-340): set differences of the key sets,
hash comparison on the intersection, all four lists sorted. -/
def diff_merkle (old_tree new_tree : MTree) : DiffResult :=
  let old_paths := mkeys old_tree
  let new_paths := mkeys new_tree
  let added := new_paths.filter (fun p => !old_paths.contains p)
  let removed := old_paths.filter (fun p => !new_paths.contains p)
  let inter := old_paths.filter (fun p => new_paths.contains p)
  let changed := inter.filter (fun p => getHash old_tree p != getHash new_tree p)
  let unchanged := inter.filter (fun p => getHash old_tree p == getHash new_tree p)
  { changed := pySorted changed
    added := pySorted added
    removed := pySorted removed
    unchanged := pySorted unchanged
    has_changes := !changed.isEmpty || !added.isEmpty || !removed.isEmpty }

/-- Membership in a stable sort is membership in the input. -/
@[simp]
theorem mem_stableSort {le : α → α → Bool} {l : List α} {a : α} :
    a ∈ stableSort le l ↔ a ∈ l :=
  (stableSort_perm le l).mem_iff

/-- Membership in `pySorted` is membership in the input. -/
theorem mem_pySorted {l : List String} {p : String} : p ∈ pySorted l ↔ p ∈ l :=
  (pySorted_perm l).mem_iff

/-- `pySorted` yields the empty list only on the empty list. -/
theorem pySorted_nil_iff (l : List String) : pySorted l = [] ↔ l = [] := by
  constructor
  · intro h
    have hp := pySorted_perm l
    rw [h] at hp
    exact hp.symm.eq_nil
  · intro h
    subst h
    simp [pySorted, stableSort]

/-- Nodup transfers to `pySorted`. -/
theorem pySorted_nodup {l : List String} (h : l.Nodup) : (pySorted l).Nodup :=
  (pySorted_perm l).nodup_iff.mpr h

/-! ## Claim C2 -/

/-- C2: `diff_merkle` returns `added` = the paths in the new map only,
`removed` = the paths in the old map only, splits the common paths into
`changed`/`unchanged` by recorded-hash difference, sorts all four lists,
lands every path of either map in exactly one duplicate-free list, and sets
`has_changes` iff one of `changed`, `added`, `removed` is non-empty. -/
theorem diff_merkle_partitions (old_tree new_tree : MTree)
    (ho : (mkeys old_tree).Nodup) (hn : (mkeys new_tree).Nodup) :
    (∀ p, p ∈ (diff_merkle old_tree new_tree).added ↔
        p ∈ mkeys new_tree ∧ p ∉ mkeys old_tree)
    ∧ (∀ p, p ∈ (diff_merkle old_tree new_tree).removed ↔
        p ∈ mkeys old_tree ∧ p ∉ mkeys new_tree)
    ∧ (∀ p, p ∈ (diff_merkle old_tree new_tree).changed ↔
        p ∈ mkeys old_tree ∧ p ∈ mkeys new_tree ∧
          getHash old_tree p ≠ getHash new_tree p)
    ∧ (∀ p, p ∈ (diff_merkle old_tree new_tree).unchanged ↔
        p ∈ mkeys old_tree ∧ p ∈ mkeys new_tree ∧
          getHash old_tree p = getHash new_tree p)
    ∧ List.Sorted (· ≤ ·) (diff_merkle old_tree new_tree).added
    ∧ List.Sorted (· ≤ ·) (diff_merkle old_tree new_tree).removed
    ∧ List.Sorted (· ≤ ·) (diff_merkle old_tree new_tree).changed
    ∧ List.Sorted (· ≤ ·) (diff_merkle old_tree new_tree).unchanged
    ∧ (diff_merkle old_tree new_tree).added.Nodup
    ∧ (diff_merkle old_tree new_tree).removed.Nodup
    ∧ (diff_merkle old_tree new_tree).changed.Nodup
    ∧ (diff_merkle old_tree new_tree).unchanged.Nodup
    ∧ (∀ p, p ∈ mkeys old_tree ∨ p ∈ mkeys new_tree →
        (p ∈ (diff_merkle old_tree new_tree).added
          ∧ p ∉ (diff_merkle old_tree new_tree).removed
          ∧ p ∉ (diff_merkle old_tree new_tree).changed
          ∧ p ∉ (diff_merkle old_tree new_tree).unchanged)
        ∨ (p ∉ (diff_merkle old_tree new_tree).added
          ∧ p ∈ (diff_merkle old_tree new_tree).removed
          ∧ p ∉ (diff_merkle old_tree new_tree).changed
          ∧ p ∉ (diff_merkle old_tree new_tree).unchanged)
        ∨ (p ∉ (diff_merkle old_tree new_tree).added
          ∧ p ∉ (diff_merkle old_tree new_tree).removed
          ∧ p ∈ (diff_merkle old_tree new_tree).changed
          ∧ p ∉ (diff_merkle old_tree new_tree).unchanged)
        ∨ (p ∉ (diff_merkle old_tree new_tree).added
          ∧ p ∉ (diff_merkle old_tree new_tree).removed
          ∧ p ∉ (diff_merkle old_tree new_tree).changed
          ∧ p ∈ (diff_merkle old_tree new_tree).unchanged))
    ∧ ((diff_merkle old_tree new_tree).has_changes = true ↔
        ((diff_merkle old_tree new_tree).changed ≠ []
          ∨ (diff_merkle old_tree new_tree).added ≠ []
          ∨ (diff_merkle old_tree new_tree).removed ≠ [])) := by
  have hadd : ∀ p, p ∈ (diff_merkle old_tree new_tree).added ↔
      p ∈ mkeys new_tree ∧ p ∉ mkeys old_tree := by
    intro p
    simp [diff_merkle, pySorted, List.contains, List.mem_filter]
  have hrem : ∀ p, p ∈ (diff_merkle old_tree new_tree).removed ↔
      p ∈ mkeys old_tree ∧ p ∉ mkeys new_tree := by
    intro p
    simp [diff_merkle, pySorted, List.contains, List.mem_filter]
  have hchg : ∀ p, p ∈ (diff_merkle old_tree new_tree).changed ↔
      p ∈ mkeys old_tree ∧ p ∈ mkeys new_tree ∧
        getHash old_tree p ≠ getHash new_tree p := by
    intro p
    simp only [diff_merkle, pySorted, mem_stableSort, List.mem_filter,
      List.contains, List.elem_eq_mem, Bool.not_eq_eq_eq_not, Bool.not_true,
      decide_eq_false_iff_not, bne_iff_ne, ne_eq, decide_eq_true_eq, and_assoc]
  have hunc : ∀ p, p ∈ (diff_merkle old_tree new_tree).unchanged ↔
      p ∈ mkeys old_tree ∧ p ∈ mkeys new_tree ∧
        getHash old_tree p = getHash new_tree p := by
    intro p
    simp only [diff_merkle, pySorted, mem_stableSort, List.mem_filter,
      List.contains, List.elem_eq_mem, beq_iff_eq, decide_eq_true_eq, and_assoc]
  refine ⟨hadd, hrem, hchg, hunc, ?_, ?_, ?_, ?_, ?_, ?_, ?_, ?_, ?_, ?_⟩
  · exact pySorted_sorted _
  · exact pySorted_sorted _
  · exact pySorted_sorted _
  · exact pySorted_sorted _
  · exact pySorted_nodup (hn.filter _)
  · exact pySorted_nodup (ho.filter _)
  · exact pySorted_nodup ((ho.filter _).filter _)
  · exact pySorted_nodup ((ho.filter _).filter _)
  · intro p hp
    by_cases hpo : p ∈ mkeys old_tree <;> by_cases hpn : p ∈ mkeys new_tree
    · by_cases hh : getHash old_tree p = getHash new_tree p
      · refine Or.inr (Or.inr (Or.inr ?_))
        simp [hadd p, hrem p, hchg p, hunc p, hpo, hpn, hh]
      · refine Or.inr (Or.inr (Or.inl ?_))
        simp [hadd p, hrem p, hchg p, hunc p, hpo, hpn, hh]
    · refine Or.inr (Or.inl ?_)
      simp [hadd p, hrem p, hchg p, hunc p, hpo, hpn]
    · refine Or.inl ?_
      simp [hadd p, hrem p, hchg p, hunc p, hpo, hpn]
    · exact absurd hp (by simp [hpo, hpn])
  · show (!List.isEmpty _ || !List.isEmpty _ || !List.isEmpty _) = true ↔ _
    simp only [Bool.or_eq_true, Bool.not_eq_true', List.isEmpty_eq_false]
    constructor
    · rintro ((h | h) | h)
      · exact Or.inl (by simpa [diff_merkle, pySorted_nil_iff] using h)
      · exact Or.inr (Or.inl (by simpa [diff_merkle, pySorted_nil_iff] using h))
      · exact Or.inr (Or.inr (by simpa [diff_merkle, pySorted_nil_iff] using h))
    · rintro (h | h | h)
      · exact Or.inl (Or.inl (by simpa [diff_merkle, pySorted_nil_iff] using h))
      · exact Or.inl (Or.inr (by simpa [diff_merkle, pySorted_nil_iff] using h))
      · exact Or.inr (by simpa [diff_merkle, pySorted_nil_iff] using h)

/-- Concrete old snapshot used to instantiate the diff theorems. -/
def mtOld : MTree :=
  [("a.txt", ⟨some "h1", some "file", none, none⟩),
   ("b.txt", ⟨some "h2", some "file", none, none⟩)]

/-- Concrete new snapshot used to instantiate the diff theorems. -/
def mtNew : MTree :=
  [("a.txt", ⟨some "h1", some "file", none, none⟩),
   ("c.txt", ⟨some "h3", some "file", none, none⟩),
   ("b.txt", ⟨some "h9", some "file", none, none⟩)]

/-- Witness for C2 at concrete snapshots. -/
theorem diff_merkle_partitions_witness :
    (mkeys mtOld).Nodup ∧ (mkeys mtNew).Nodup
    ∧ (∀ p, p ∈ (diff_merkle mtOld mtNew).added ↔
        p ∈ mkeys mtNew ∧ p ∉ mkeys mtOld) :=
  ⟨by decide, by decide,
   (diff_merkle_partitions mtOld mtNew (by decide) (by decide)).1⟩

/-! ## Claim C9 -/

/-- Projection keeping only the `hash` field of an entry. -/
def hashOnly (n : MerkleNode) : MerkleNode := ⟨n.hash, none, none, none⟩

/-- Apply a function to every value of a tree. -/
def mapValues (f : MerkleNode → MerkleNode) (t : MTree) : MTree :=
  t.map (fun pr => (pr.1, f pr.2))

/-- Lookup commutes with a value-map. -/
theorem mlookup_map (f : MerkleNode → MerkleNode) (t : MTree) (p : String) :
    mlookup (mapValues f t) p = (mlookup t p).map f := by
  induction t with
  | nil => rfl
  | cons hd tl ih =>
    obtain ⟨k, v⟩ := hd
    unfold mlookup mapValues at *
    simp only [List.map_cons, List.lookup_cons]
    by_cases h : (p == k) = true
    · simp [h]
    · simp only [h, Bool.false_eq_true, if_false]
      exact ih

/-- A successful lookup puts the key among the tree keys. -/
theorem mlookup_mem_keys {t : MTree} {p : String} {n : MerkleNode}
    (h : mlookup t p = some n) : p ∈ mkeys t := by
  have hs : (t.lookup p).isSome := by
    rw [show t.lookup p = some n from h]
    rfl
  rcases List.lookup_isSome_iff.mp hs with ⟨pr, hpr, hbeq⟩
  have hp : p = pr.1 := by simpa using hbeq
  exact List.mem_map.mpr ⟨pr, hpr, hp.symm⟩

/-- C9: `diff_merkle` classifies common paths solely by the value under the
`hash` key — erasing every other field of every entry leaves the diff
unchanged — and a common path whose two entries carry equal (possibly both
absent) `hash` values is classified `unchanged`, regardless of the `type`
tag. -/
theorem diff_merkle_hash_only (old_tree new_tree : MTree) :
    diff_merkle old_tree new_tree =
      diff_merkle (mapValues hashOnly old_tree) (mapValues hashOnly new_tree)
    ∧ (∀ p n₁ n₂, mlookup old_tree p = some n₁ → mlookup new_tree p = some n₂ →
        n₁.hash = n₂.hash → p ∈ (diff_merkle old_tree new_tree).unchanged) := by
  have hk : ∀ t : MTree, mkeys (mapValues hashOnly t) = mkeys t := by
    intro t
    simp [mkeys, mapValues, Function.comp]
  have hg : ∀ (t : MTree) (p : String), getHash (mapValues hashOnly t) p = getHash t p := by
    intro t p
    rw [getHash, getHash, mlookup_map]
    cases mlookup t p <;> rfl
  constructor
  · simp [diff_merkle, hk, hg]
  · intro p n₁ n₂ h₁ h₂ hh
    have hpo : p ∈ mkeys old_tree := mlookup_mem_keys h₁
    have hpn : p ∈ mkeys new_tree := mlookup_mem_keys h₂
    have hgh : getHash old_tree p = getHash new_tree p := by
      rw [getHash, getHash, h₁, h₂]
      simpa using hh
    simp only [diff_merkle, pySorted, mem_stableSort, List.mem_filter,
      List.contains, List.elem_eq_mem, beq_iff_eq, decide_eq_true_eq]
    exact ⟨⟨hpo, hpn⟩, hgh⟩

/-- Concrete snapshots for C9: same recorded hash, different `type` tags. -/
def mtOldT : MTree := [("x", ⟨some "h", some "file", none, some 3⟩)]

/-- Concrete new snapshot for C9. -/
def mtNewT : MTree := [("x", ⟨some "h", some "dir", some [], none⟩)]

/-- Witness for C9: a path that switched kind but kept its hash is
`unchanged`. -/
theorem diff_merkle_hash_only_witness :
    mlookup mtOldT "x" = some ⟨some "h", some "file", none, some 3⟩
    ∧ mlookup mtNewT "x" = some ⟨some "h", some "dir", some [], none⟩
    ∧ "x" ∈ (diff_merkle mtOldT mtNewT).unchanged :=
  ⟨rfl, rfl, (diff_merkle_hash_only mtOldT mtNewT).2 "x" _ _ rfl rfl rfl⟩

/-! ## Walk infrastructure: induction principle and state algebra -/

/-- Member-wise induction over the filesystem tree. -/
theorem FSEntry.recMem {P : FSEntry → Prop}
    (hf : ∀ n s t c, P (.file n s t c))
    (hd : ∀ n, P (.dirDenied n))
    (hD : ∀ n es, (∀ e ∈ es, P e) → P (.dir n es)) : ∀ e, P e := by
  have key : ∀ (k : Nat) (e : FSEntry), sizeOf e ≤ k → P e := by
    intro k
    induction k with
    | zero =>
      intro e he
      exfalso
      cases e <;> simp_arith at he
    | succ k ih =>
      intro e he
      cases e with
      | file n s t c => exact hf n s t c
      | dirDenied n => exact hd n
      | dir n es =>
        refine hD n es (fun e' he' => ih e' ?_)
        have h1 := List.sizeOf_lt_of_mem he'
        have h2 : sizeOf (FSEntry.dir n es) = 1 + sizeOf n + sizeOf es := by
          simp_arith
        omega
  exact fun e => key (sizeOf e) e (Nat.le_refl _)

/-- Field-wise concatenation of accumulator states. -/
def ScanState.app (s t : ScanState) : ScanState :=
  ⟨s.files ++ t.files, s.directories ++ t.directories, s.skipped ++ t.skipped,
   s.total_tokens + t.total_tokens, s.tree ++ t.tree⟩

/-- Appending the empty state is the identity. -/
theorem ScanState.app_empty (s : ScanState) : s.app ScanState.empty = s := by
  simp [ScanState.app, ScanState.empty]

/-- Prepending the empty state is the identity. -/
theorem ScanState.empty_app (s : ScanState) : ScanState.empty.app s = s := by
  simp [ScanState.app, ScanState.empty]

/-- State concatenation is associative. -/
theorem ScanState.app_assoc (s t u : ScanState) :
    (s.app t).app u = s.app (t.app u) := by
  simp [ScanState.app, List.append_assoc, Nat.add_assoc]

/-- The walk only appends to the threaded state: its result at any state
is its result at the empty state, concatenated onto the input. -/
def WalkSt (cfg : ScanConfig) (e : FSEntry) : Prop :=
  ∀ rel st, walk cfg e rel st =
    ((walk cfg e rel ScanState.empty).1,
      st.app (walk cfg e rel ScanState.empty).2)

/-- List version of `WalkSt`, assuming it member-wise. -/
theorem walkList_state_of (cfg : ScanConfig) (es : List FSEntry)
    (hes : ∀ e ∈ es, WalkSt cfg e) :
    ∀ rel st, walkList cfg es rel st =
      ((walkList cfg es rel ScanState.empty).1,
        (walkList cfg es rel ScanState.empty).2.1,
        st.app (walkList cfg es rel ScanState.empty).2.2) := by
  induction es with
  | nil =>
    intro rel st
    simp [walkList, ScanState.app_empty]
  | cons e es ih =>
    intro rel st
    have he := hes e (List.mem_cons_self e es)
    have hes' : ∀ x ∈ es, WalkSt cfg x := fun x hx => hes x (List.mem_cons_of_mem e hx)
    have ih' := ih hes'
    rcases hwe : walk cfg e (childRel rel (entryName e)) ScanState.empty with ⟨h₁, d₁⟩
    have heSt : walk cfg e (childRel rel (entryName e)) st = (h₁, st.app d₁) := by
      rw [he (childRel rel (entryName e)) st, hwe]
    simp only [walkList, heSt, hwe, ScanState.empty_app]
    rw [ih' rel (st.app d₁), ih' rel d₁]
    rcases h₁ with _ | hs
    · simp [ScanState.app_assoc]
    · by_cases hh : hs.data.isEmpty = true <;> simp [hh, ScanState.app_assoc]

/-- Every entry satisfies the state-append property. -/
theorem walk_state (cfg : ScanConfig) : ∀ e, WalkSt cfg e := by
  intro e
  induction e using FSEntry.recMem with
  | hf n s t c =>
    intro rel st
    by_cases hig :
        should_ignore (entryName (FSEntry.file n s t c))
          (entryIsDir (FSEntry.file n s t c)) rel cfg.gitignore_patterns = true
    · simp [walk, hig, ScanState.app_empty]
    · simp only [walk, hig, Bool.false_eq_true, if_false]
      by_cases h1 : s > 1000000
      · simp [h1, ScanState.app, ScanState.empty]
      · simp only [h1, if_false]
        by_cases h2 : t = true
        · simp only [h2, Bool.not_true, Bool.false_eq_true, if_false]
          rcases c with msg | bytes
          · simp [ScanState.app, ScanState.empty]
          · by_cases h3 : cfg.tokensOf bytes > cfg.max_file_tokens
            · simp [h3, ScanState.app, ScanState.empty]
            · simp [h3, ScanState.app, ScanState.empty]
        · have h2' : t = false := by
            cases t
            · rfl
            · exact absurd rfl h2
          simp [h2', ScanState.app, ScanState.empty]
  | hd n =>
    intro rel st
    by_cases hig :
        should_ignore (entryName (FSEntry.dirDenied n))
          (entryIsDir (FSEntry.dirDenied n)) rel cfg.gitignore_patterns = true
    · simp [walk, hig, ScanState.app_empty]
    · by_cases hr : (rel != ".") = true <;>
        simp [walk, hig, hr, ScanState.app, ScanState.empty]
  | hD n es ihes =>
    intro rel st
    by_cases hig :
        should_ignore (entryName (FSEntry.dir n es))
          (entryIsDir (FSEntry.dir n es)) rel cfg.gitignore_patterns = true
    · simp [walk, hig, ScanState.app_empty]
    · simp only [walk, hig, Bool.false_eq_true, if_false]
      have hwl := walkList_state_of cfg es ihes
      by_cases hr : (rel != ".") = true
      · simp only [hr, if_true]
        rw [hwl rel { st with directories := st.directories ++ [rel] },
          hwl rel { ScanState.empty with directories := ScanState.empty.directories ++ [rel] }]
        rcases hemp : (walkList cfg es rel ScanState.empty).1.isEmpty with _ | _
        · simp [hemp, ScanState.app, ScanState.empty, List.append_assoc, Prod.ext_iff]
        · simp [hemp, ScanState.app, ScanState.empty, List.append_assoc, Prod.ext_iff]
      · simp only [hr, Bool.false_eq_true, if_false]
        rw [hwl rel st, hwl rel ScanState.empty]
        rcases hemp : (walkList cfg es rel ScanState.empty).1.isEmpty with _ | _
        · simp [hemp, ScanState.app, ScanState.empty, List.append_assoc, Prod.ext_iff]
        · simp [hemp, ScanState.app, ScanState.empty, List.append_assoc, Prod.ext_iff]

/-- Sorting preserves an entry's basename. -/
theorem entryName_sortFS (e : FSEntry) : entryName (sortFS e) = entryName e := by
  cases e <;> rfl

/-- Sorting preserves an entry's kind. -/
theorem entryIsDir_sortFS (e : FSEntry) : entryIsDir (sortFS e) = entryIsDir e := by
  cases e <;> rfl

/-! ## Claim C10 -/

/-- C10: the ignore filter is applied to the scan root itself, before any
child is visited: whatever the root's listing, if `should_ignore` accepts the
root at relative path "." (built-in set or root gitignore pattern), the walk
returns no hash and the snapshot is empty — empty root hash, no files, no
skip records, no tree entries, zero totals. -/
theorem scan_ignored_root (cfg : ScanConfig) (root : FSEntry)
    (hig : should_ignore (entryName root) (entryIsDir root) "."
      cfg.gitignore_patterns = true) :
    walk cfg (sortFS root) "." ScanState.empty = (none, ScanState.empty)
    ∧ scan_directory cfg root =
        { files := [], directories := [], total_tokens := 0, total_files := 0,
          skipped := [], root_hash := "", tree := [] } := by
  have hw : walk cfg (sortFS root) "." ScanState.empty = (none, ScanState.empty) := by
    rw [walk.eq_def]
    simp [entryName_sortFS, entryIsDir_sortFS, hig]
  refine ⟨hw, ?_⟩
  unfold scan_directory
  rw [hw]
  rfl

/-- Shared concrete configuration for the walk witnesses: default 50000-token
ceiling, byte-count tokenizer, no gitignore patterns. -/
def cfgW : ScanConfig := ⟨50000, List.length, []⟩

/-- Witness for C10: a root named `.git` scans to the empty snapshot. -/
theorem scan_ignored_root_witness :
    should_ignore (entryName (FSEntry.dir ".git" [FSEntry.file "x.txt" 1 true (.ok [97])]))
      (entryIsDir (FSEntry.dir ".git" [FSEntry.file "x.txt" 1 true (.ok [97])])) "."
      cfgW.gitignore_patterns = true
    ∧ scan_directory cfgW (FSEntry.dir ".git" [FSEntry.file "x.txt" 1 true (.ok [97])]) =
        { files := [], directories := [], total_tokens := 0, total_files := 0,
          skipped := [], root_hash := "", tree := [] } :=
  ⟨by decide,
   (scan_ignored_root cfgW (FSEntry.dir ".git" [FSEntry.file "x.txt" 1 true (.ok [97])])
     (by decide)).2⟩

/-! ## Claim C6 -/

/-- C6: when an included file's token count exceeds the ceiling, the gate
fires only after the whole content was read (the recorded count is that of
the full byte content) and its hash `compute_hash bytes` was computed; the
file is excluded with one `too_many_tokens` SkipRecord carrying the count,
returns no hash, gets no tree node, and adds nothing to the totals. The
second conjunct shows what was discarded: under a sufficient ceiling the same
read yields the node with exactly that hash. -/
theorem walk_token_ceiling (cfg : ScanConfig) (name : String) (size : Nat)
    (bytes : List Nat) (rel : String) (st : ScanState)
    (hig : should_ignore name false rel cfg.gitignore_patterns = false)
    (hsize : ¬ size > 1000000)
    (htok : cfg.tokensOf bytes > cfg.max_file_tokens) :
    walk cfg (.file name size true (.ok bytes)) rel st =
      (none, { st with skipped := st.skipped ++
          [⟨rel, "too_many_tokens", none, some (cfg.tokensOf bytes)⟩] })
    ∧ (∀ cfg2 : ScanConfig, cfg2.gitignore_patterns = cfg.gitignore_patterns →
        ¬ cfg2.tokensOf bytes > cfg2.max_file_tokens →
        walk cfg2 (.file name size true (.ok bytes)) rel st =
          (some (compute_hash bytes),
           { st with
               files := st.files ++ [⟨rel, cfg2.tokensOf bytes, size, compute_hash bytes⟩],
               tree := st.tree ++ [(rel, .fileN (compute_hash bytes) (cfg2.tokensOf bytes))],
               total_tokens := st.total_tokens + cfg2.tokensOf bytes })) := by
  constructor
  · rw [walk.eq_def]
    simp [entryName, entryIsDir, hig, hsize, htok]
  · intro cfg2 hpat htok2
    rw [walk.eq_def]
    simp [entryName, entryIsDir, hpat, hig, hsize, htok2]

/-- Concrete configuration with a 3-token ceiling, for the C6 witness. -/
def cfgT : ScanConfig := ⟨3, List.length, []⟩

/-- Witness for C6 at a concrete oversized file. -/
theorem walk_token_ceiling_witness :
    should_ignore "big.txt" false "big.txt" cfgT.gitignore_patterns = false
    ∧ ¬ (5 : Nat) > 1000000
    ∧ cfgT.tokensOf [97, 98, 99, 100, 101] > cfgT.max_file_tokens
    ∧ walk cfgT (.file "big.txt" 5 true (.ok [97, 98, 99, 100, 101])) "big.txt"
        ScanState.empty =
      (none, { ScanState.empty with skipped := ScanState.empty.skipped ++
          [⟨"big.txt", "too_many_tokens", none, some 5⟩] }) :=
  ⟨by decide, by decide, by decide,
   (walk_token_ceiling cfgT "big.txt" 5 [97, 98, 99, 100, 101] "big.txt"
     ScanState.empty (by decide) (by decide) (by decide)).1⟩

/-! ## Claim C7 -/

/-- C7: a directory whose listing raises a permission error is caught at that
directory: the walk emits exactly one `permission_denied` SkipRecord for its
path, returns no hash for the subtree (no tree node, no files, no tokens),
and the traversal is not aborted — processing a sibling list containing the
denied directory equals processing the remaining siblings from the state
extended with just that skip record (and the `directories` listing entry). -/
theorem walk_dir_permission_denied (cfg : ScanConfig) (name : String)
    (es : List FSEntry) (parentRel : String) (st : ScanState)
    (hig : should_ignore name true (childRel parentRel name)
      cfg.gitignore_patterns = false)
    (hrel : (childRel parentRel name != ".") = true) :
    walk cfg (.dirDenied name) (childRel parentRel name) st =
      (none, { st with
          directories := st.directories ++ [childRel parentRel name],
          skipped := st.skipped ++
            [⟨childRel parentRel name, "permission_denied", none, none⟩] })
    ∧ walkList cfg (.dirDenied name :: es) parentRel st =
        walkList cfg es parentRel
          { st with
            directories := st.directories ++ [childRel parentRel name],
            skipped := st.skipped ++
              [⟨childRel parentRel name, "permission_denied", none, none⟩] } := by
  have h1 : walk cfg (.dirDenied name) (childRel parentRel name) st =
      (none, { st with
          directories := st.directories ++ [childRel parentRel name],
          skipped := st.skipped ++
            [⟨childRel parentRel name, "permission_denied", none, none⟩] }) := by
    rw [walk.eq_def]
    simp [entryName, entryIsDir, hig, hrel]
  refine ⟨h1, ?_⟩
  rw [walkList.eq_def]
  simp only [entryName]
  rw [h1]

/-- Witness for C7: a denied directory among siblings. -/
theorem walk_dir_permission_denied_witness :
    should_ignore "secret" true (childRel "." "secret") cfgW.gitignore_patterns = false
    ∧ (childRel "." "secret" != ".") = true
    ∧ walk cfgW (.dirDenied "secret") (childRel "." "secret") ScanState.empty =
      (none, { ScanState.empty with
          directories := ScanState.empty.directories ++ [childRel "." "secret"],
          skipped := ScanState.empty.skipped ++
            [⟨childRel "." "secret", "permission_denied", none, none⟩] }) :=
  ⟨by decide, by decide,
   (walk_dir_permission_denied cfgW "secret" [] "." ScanState.empty
     (by decide) (by decide)).1⟩

/-! ## Claim C5 -/

/-- Shape of every skip record the walk can produce: one of the four literal
reasons with their detail fields, or a `read_error: `-prefixed reason carrying
the exception text inside the reason string itself. -/
def skipReasonOk (r : SkipRec) : Prop :=
  (r.reason = "permission_denied" ∧ r.size_bytes = none ∧ r.tokens = none)
  ∨ (r.reason = "too_large" ∧ (∃ n, r.size_bytes = some n) ∧ r.tokens = none)
  ∨ (r.reason = "binary" ∧ r.size_bytes = none ∧ r.tokens = none)
  ∨ (r.reason = "too_many_tokens" ∧ r.size_bytes = none ∧ (∃ n, r.tokens = some n))
  ∨ (∃ msg, r.reason = "read_error: " ++ msg ∧ r.size_bytes = none ∧ r.tokens = none)

/-- The final state of a loop step forwards the state of the head's walk. -/
theorem walkList_snd (cfg : ScanConfig) (e : FSEntry) (es : List FSEntry)
    (rel : String) (st : ScanState) :
    (walkList cfg (e :: es) rel st).2.2 =
      (walkList cfg es rel (walk cfg e (childRel rel (entryName e)) st).2).2.2 := by
  rw [walkList.eq_def]
  dsimp only
  rcases hres : (walk cfg e (childRel rel (entryName e)) st).1 with _ | h
  · simp [hres]
  · by_cases hh : h.data.isEmpty = true <;> simp [hres, hh]

/-- Per-entry skip-reason soundness. -/
def SkipOk (cfg : ScanConfig) (e : FSEntry) : Prop :=
  ∀ rel st rec, rec ∈ (walk cfg e rel st).2.skipped →
    rec ∈ st.skipped ∨ skipReasonOk rec

/-- List version of skip-reason soundness. -/
theorem walkList_skipOk_of (cfg : ScanConfig) (es : List FSEntry)
    (hes : ∀ e ∈ es, SkipOk cfg e) :
    ∀ rel st rec, rec ∈ (walkList cfg es rel st).2.2.skipped →
      rec ∈ st.skipped ∨ skipReasonOk rec := by
  induction es with
  | nil =>
    intro rel st rec h
    rw [walkList.eq_def] at h
    exact Or.inl h
  | cons e es ih =>
    intro rel st rec h
    rw [walkList_snd] at h
    rcases ih (fun x hx => hes x (List.mem_cons_of_mem e hx)) rel
        (walk cfg e (childRel rel (entryName e)) st).2 rec h with h' | ok
    · exact hes e (List.mem_cons_self e es) (childRel rel (entryName e)) st rec h'
    · exact Or.inr ok

/-- Every entry satisfies skip-reason soundness. -/
theorem walk_skipOk (cfg : ScanConfig) : ∀ e, SkipOk cfg e := by
  intro e
  induction e using FSEntry.recMem with
  | hf n s t c =>
    intro rel st rec hmem
    rw [walk.eq_def] at hmem
    by_cases hig : should_ignore (entryName (FSEntry.file n s t c))
        (entryIsDir (FSEntry.file n s t c)) rel cfg.gitignore_patterns = true
    · simp only [hig, if_true] at hmem
      exact Or.inl hmem
    · simp only [hig, Bool.false_eq_true, if_false] at hmem
      by_cases h1 : s > 1000000
      · simp only [h1, if_true, List.mem_append, List.mem_singleton] at hmem
        rcases hmem with h | rfl
        · exact Or.inl h
        · exact Or.inr (Or.inr (Or.inl ⟨rfl, ⟨s, rfl⟩, rfl⟩))
      · simp only [h1, if_false] at hmem
        by_cases h2 : t = true
        · subst h2
          simp only [Bool.not_true, Bool.false_eq_true, if_false] at hmem
          rcases c with msg | bytes
          · simp only [List.mem_append, List.mem_singleton] at hmem
            rcases hmem with h | rfl
            · exact Or.inl h
            · exact Or.inr (Or.inr (Or.inr (Or.inr (Or.inr ⟨msg, rfl, rfl, rfl⟩))))
          · by_cases h3 : cfg.tokensOf bytes > cfg.max_file_tokens
            · simp only [h3, if_true, List.mem_append, List.mem_singleton] at hmem
              rcases hmem with h | rfl
              · exact Or.inl h
              · exact Or.inr (Or.inr (Or.inr (Or.inr (Or.inl
                  ⟨rfl, rfl, ⟨cfg.tokensOf bytes, rfl⟩⟩))))
            · simp only [h3, if_false] at hmem
              exact Or.inl hmem
        · have h2' : t = false := by
            cases t
            · rfl
            · exact absurd rfl h2
          subst h2'
          simp only [Bool.not_false, if_true, List.mem_append, List.mem_singleton] at hmem
          rcases hmem with h | rfl
          · exact Or.inl h
          · exact Or.inr (Or.inr (Or.inr (Or.inl ⟨rfl, rfl, rfl⟩)))
  | hd n =>
    intro rel st rec hmem
    rw [walk.eq_def] at hmem
    by_cases hig : should_ignore (entryName (FSEntry.dirDenied n))
        (entryIsDir (FSEntry.dirDenied n)) rel cfg.gitignore_patterns = true
    · simp only [hig, if_true] at hmem
      exact Or.inl hmem
    · by_cases hr : (rel != ".") = true <;>
        · simp only [hig, Bool.false_eq_true, if_false, hr, if_true,
            List.mem_append, List.mem_singleton] at hmem
          rcases hmem with h | rfl
          · exact Or.inl h
          · exact Or.inr (Or.inl ⟨rfl, rfl, rfl⟩)
  | hD n es ihes =>
    intro rel st rec hmem
    rw [walk.eq_def] at hmem
    by_cases hig : should_ignore (entryName (FSEntry.dir n es))
        (entryIsDir (FSEntry.dir n es)) rel cfg.gitignore_patterns = true
    · simp only [hig, if_true] at hmem
      exact Or.inl hmem
    · simp only [hig, Bool.false_eq_true, if_false] at hmem
      by_cases hr : (rel != ".") = true
      · simp only [hr, if_true] at hmem
        have hrec : rec ∈ (walkList cfg es rel
            { st with directories := st.directories ++ [rel] }).2.2.skipped := by
          by_cases hemp : (walkList cfg es rel
              { st with directories := st.directories ++ [rel] }).1.isEmpty = true
          · simpa [hemp] using hmem
          · simpa [hemp] using hmem
        rcases walkList_skipOk_of cfg es ihes rel
            { st with directories := st.directories ++ [rel] } rec hrec with h | ok
        · exact Or.inl h
        · exact Or.inr ok
      · simp only [hr, Bool.false_eq_true, if_false] at hmem
        have hrec : rec ∈ (walkList cfg es rel st).2.2.skipped := by
          by_cases hemp : (walkList cfg es rel st).1.isEmpty = true
          · simpa [hemp] using hmem
          · simpa [hemp] using hmem
        exact walkList_skipOk_of cfg es ihes rel st rec hrec

/-- C5 (amended): every SkipRecord of a scan carries a reason that is one of
`permission_denied`, `too_large`, `binary`, `too_many_tokens` — with the size
or token detail in a separate field — or a reason of the form
`read_error: <detail>`, with the diagnostic embedded in the reason string;
the reason `ignored` is never produced. -/
theorem scan_skip_reasons (cfg : ScanConfig) (root : FSEntry) :
    ∀ rec ∈ (scan_directory cfg root).skipped, skipReasonOk rec := by
  intro rec h
  have hmem : rec ∈ (walk cfg (sortFS root) "." ScanState.empty).2.skipped := h
  rcases walk_skipOk cfg (sortFS root) "." ScanState.empty rec hmem with h' | ok
  · exact absurd h' (List.not_mem_nil rec)
  · exact ok

/-- Witness for C5 (amended) at a concrete read failure. -/
theorem scan_skip_reasons_witness :
    (⟨"e.txt", "read_error: boom", none, none⟩ : SkipRec) ∈
      (scan_directory cfgW (.dir "r" [.file "e.txt" 5 true (.error "boom")])).skipped
    ∧ skipReasonOk ⟨"e.txt", "read_error: boom", none, none⟩ :=
  ⟨by decide,
   scan_skip_reasons cfgW (.dir "r" [.file "e.txt" 5 true (.error "boom")])
     ⟨"e.txt", "read_error: boom", none, none⟩ (by decide)⟩

/-- Counterexample to C5 as stated: a failing read produces the reason string
`read_error: boom`, which is none of the six bare reason values — the
diagnostic is embedded in the reason, not carried separately. -/
theorem skip_reason_counterexample :
    (scan_directory cfgW (.dir "r" [.file "e.txt" 5 true (.error "boom")])).skipped =
      [⟨"e.txt", "read_error: boom", none, none⟩]
    ∧ ("read_error: boom" : String) ∉
        (["ignored", "permission_denied", "too_large", "binary",
          "too_many_tokens", "read_error"] : List String) := by
  constructor
  · decide
  · decide

/-! ## Path separation lemmas -/

/-- Appending strings concatenates their character data. -/
theorem strData_append (a b : String) : (a ++ b).data = a.data ++ b.data := rfl

/-- A slash-free block before the first separator is determined. -/
theorem sepInj : ∀ (a : List Char) {b t₁ t₂ : List Char},
    ('/' : Char) ∉ a → ('/' : Char) ∉ b →
    a ++ '/' :: t₁ = b ++ '/' :: t₂ → a = b ∧ t₁ = t₂ := by
  intro a
  induction a with
  | nil =>
    intro b t₁ t₂ _ hb h
    cases b with
    | nil =>
      simp only [List.nil_append, List.cons.injEq] at h
      exact ⟨rfl, h.2⟩
    | cons c bs =>
      simp only [List.nil_append, List.cons_append, List.cons.injEq] at h
      exact absurd (h.1 ▸ List.mem_cons_self c bs) hb
  | cons c as ih =>
    intro b t₁ t₂ ha hb h
    cases b with
    | nil =>
      simp only [List.cons_append, List.nil_append, List.cons.injEq] at h
      exact absurd (h.1.symm ▸ List.mem_cons_self c as) ha
    | cons d bs =>
      simp only [List.cons_append, List.cons.injEq] at h
      obtain ⟨rfl, h2⟩ := h
      have ha' : ('/' : Char) ∉ as := fun hx => ha (List.mem_cons_of_mem c hx)
      have hb' : ('/' : Char) ∉ bs := fun hx => hb (List.mem_cons_of_mem c hx)
      obtain ⟨rfl, rfl⟩ := ih ha' hb' h2
      exact ⟨rfl, rfl⟩

/-- A slash-free string never decomposes across a separator. -/
theorem noSlash_ne_sep {a : String} (ha : ('/' : Char) ∉ a.data) (b t : String) :
    a ≠ b ++ "/" ++ t := by
  intro h
  apply ha
  rw [h, strData_append, strData_append]
  have h1 : ('/' : Char) ∈ ("/" : String).data := by decide
  exact List.mem_append.mpr (Or.inl (List.mem_append.mpr (Or.inr h1)))

/-- No string equals itself extended by a separator and a suffix. -/
theorem ne_self_sep (r t : String) : r ≠ r ++ "/" ++ t := by
  intro h
  have hlen : r.data.length = r.data.length + 1 + t.data.length := by
    conv_lhs => rw [h]
    rw [strData_append, strData_append]
    simp [List.length_append, String.data]
    omega
  omega

/-! ## Well-formed filesystem names -/

/-- A legal basename: non-empty, not `.`, and without a path separator. -/
def goodNameB (n : String) : Bool :=
  !n.data.isEmpty && n != "." && !n.data.contains '/'

/-- Unpacked form of `goodNameB`. -/
theorem goodNameB_spec {n : String} (h : goodNameB n = true) :
    n.data ≠ [] ∧ n ≠ "." ∧ ('/' : Char) ∉ n.data := by
  simp only [goodNameB, Bool.and_eq_true, Bool.not_eq_eq_eq_not, Bool.not_true,
    List.isEmpty_eq_false, bne_iff_ne, ne_eq, List.contains, List.elem_eq_mem,
    decide_eq_false_iff_not] at h
  exact ⟨h.1.1, h.1.2, h.2⟩

/-- Duplicate-free basenames in a listing. -/
def nodupNames : List FSEntry → Bool
  | [] => true
  | e :: es => !((es.map entryName).contains (entryName e)) && nodupNames es

/-- `nodupNames` means the mapped names are `Nodup`. -/
theorem nodupNames_iff : ∀ es : List FSEntry,
    nodupNames es = true ↔ (es.map entryName).Nodup := by
  intro es
  induction es with
  | nil => simp [nodupNames]
  | cons e es ih =>
    simp [nodupNames, ih, List.contains, List.elem_eq_mem]

mutual
/-- Bool-valued well-formedness of a tree: every basename is legal and every
listing is duplicate-free. -/
def WFb : FSEntry → Bool
  | .file n _ _ _ => goodNameB n
  | .dirDenied n => goodNameB n
  | .dir n es => goodNameB n && nodupNames es && WFbL es

/-- Well-formedness of each entry of a listing. -/
def WFbL : List FSEntry → Bool
  | [] => true
  | e :: es => WFb e && WFbL es
end

/-- `WFbL` is member-wise well-formedness. -/
theorem WFbL_iff : ∀ es : List FSEntry, WFbL es = true ↔ ∀ e ∈ es, WFb e = true := by
  intro es
  induction es with
  | nil => simp [WFbL]
  | cons e es ih => simp [WFbL, ih]

/-- The paths lying in the subtree rooted at relative path `rel`. -/
def inSub (rel p : String) : Prop := p = rel ∨ ∃ t, p = rel ++ "/" ++ t

/-- A subtree path under an extended relative path extends the base. -/
theorem inSub_step {rel n p : String} (hp : inSub (rel ++ "/" ++ n) p) :
    ∃ t, p = rel ++ "/" ++ t := by
  rcases hp with rfl | ⟨t, rfl⟩
  · exact ⟨n, rfl⟩
  · exact ⟨n ++ "/" ++ t, by simp [String.append_assoc]⟩

/-- A subtree path of a well-named child is never the parent itself. -/
theorem inSub_ne_parent {rel n p : String} (hp : inSub (rel ++ "/" ++ n) p) :
    p ≠ rel := by
  rcases inSub_step hp with ⟨t, rfl⟩
  exact (ne_self_sep rel t).symm

/-- A child's relative path is never `.`. -/
theorem childRel_ne_dot {parentRel n : String} (hn : goodNameB n = true) :
    childRel parentRel n ≠ "." := by
  obtain ⟨hne, hdot, hslash⟩ := goodNameB_spec hn
  unfold childRel
  by_cases hp : (parentRel == ".") = true
  · simpa [hp] using hdot
  · simp only [hp, Bool.false_eq_true, if_false]
    intro h
    have h2 : ('/' : Char) ∈ (("." : String)).data := by
      rw [← h, strData_append, strData_append]
      have h1 : ('/' : Char) ∈ ("/" : String).data := by decide
      exact List.mem_append.mpr (Or.inl (List.mem_append.mpr (Or.inr h1)))
    exact absurd h2 (by decide)

/-- Character data of a subtree path: the base, or the base followed by a
separator and a suffix. -/
theorem inSub_data {rel p : String} (h : inSub rel p) :
    p.data = rel.data ∨ ∃ t : List Char, p.data = rel.data ++ '/' :: t := by
  have hsl : ("/" : String).data = ['/'] := by decide
  rcases h with rfl | ⟨t, rfl⟩
  · exact Or.inl rfl
  · refine Or.inr ⟨t.data, ?_⟩
    rw [strData_append, strData_append, hsl]
    simp [List.append_assoc]

/-- Character data of a child-relative path. -/
theorem childRel_data (parentRel n : String) :
    (childRel parentRel n).data =
      (if (parentRel == ".") = true then ([] : List Char)
       else parentRel.data ++ ['/']) ++ n.data := by
  have hsl : ("/" : String).data = ['/'] := by decide
  unfold childRel
  by_cases hp : (parentRel == ".") = true
  · simp [hp]
  · simp only [hp, Bool.false_eq_true, if_false]
    rw [strData_append, strData_append, hsl]

/-- Two distinct slash-free segments after a common prefix generate disjoint
path families. -/
theorem seg_disjoint (P : List Char) {a b : List Char}
    (hsa : ('/' : Char) ∉ a) (hsb : ('/' : Char) ∉ b) (hne : a ≠ b)
    (q : List Char)
    (hqa : q = P ++ a ∨ ∃ t, q = P ++ a ++ '/' :: t)
    (hqb : q = P ++ b ∨ ∃ t, q = P ++ b ++ '/' :: t) : False := by
  rcases hqa with rfl | ⟨t₁, rfl⟩
  · rcases hqb with h | ⟨t₂, h⟩
    · exact hne (List.append_cancel_left h)
    · have h0 : P ++ a = P ++ (b ++ '/' :: t₂) := by
        simpa [List.append_assoc] using h
      have h' : a = b ++ '/' :: t₂ := List.append_cancel_left h0
      exact hsa (h' ▸ List.mem_append.mpr (Or.inr (List.mem_cons_self '/' t₂)))
  · rcases hqb with h | ⟨t₂, h⟩
    · have h0 : P ++ b = P ++ (a ++ '/' :: t₁) := by
        simpa [List.append_assoc] using h.symm
      have h' : b = a ++ '/' :: t₁ := List.append_cancel_left h0
      exact hsb (h' ▸ List.mem_append.mpr (Or.inr (List.mem_cons_self '/' t₁)))
    · have h0 : P ++ (a ++ '/' :: t₁) = P ++ (b ++ '/' :: t₂) := by
        simpa [List.append_assoc] using h
      have h' : a ++ '/' :: t₁ = b ++ '/' :: t₂ := List.append_cancel_left h0
      exact hne (sepInj a hsa hsb h').1

/-- Subtree paths of two differently named well-formed siblings are
disjoint. -/
theorem inSub_disjoint (parentRel : String) {n₁ n₂ : String}
    (h₁ : goodNameB n₁ = true) (h₂ : goodNameB n₂ = true) (hne : n₁ ≠ n₂) :
    ∀ p, inSub (childRel parentRel n₁) p → inSub (childRel parentRel n₂) p → False := by
  obtain ⟨_, _, hs₁⟩ := goodNameB_spec h₁
  obtain ⟨_, _, hs₂⟩ := goodNameB_spec h₂
  intro p hp₁ hp₂
  have hd₁ := inSub_data hp₁
  have hd₂ := inSub_data hp₂
  rw [childRel_data] at hd₁ hd₂
  have hnd : n₁.data ≠ n₂.data := fun h => hne (String.ext h)
  refine seg_disjoint
    (if (parentRel == ".") = true then ([] : List Char) else parentRel.data ++ ['/'])
    hs₁ hs₂ hnd p.data ?_ ?_
  · rcases hd₁ with h | ⟨t, h⟩
    · exact Or.inl h
    · exact Or.inr ⟨t, by simpa [List.append_assoc] using h⟩
  · rcases hd₂ with h | ⟨t, h⟩
    · exact Or.inl h
    · exact Or.inr ⟨t, by simpa [List.append_assoc] using h⟩

mutual
/-- All root-relative paths of the entries of a subtree placed at `rel`. -/
def allRels : FSEntry → String → List String
  | .file .., rel => [rel]
  | .dirDenied _, rel => [rel]
  | .dir _ es, rel => rel :: allRelsL es rel

/-- Relative paths contributed by the entries of a listing under a parent. -/
def allRelsL : List FSEntry → String → List String
  | [], _ => []
  | e :: es, rel => allRels e (childRel rel (entryName e)) ++ allRelsL es rel
end

/-- Membership in the listing-level path collection. -/
theorem mem_allRelsL {p : String} : ∀ {es : List FSEntry} {rel : String},
    p ∈ allRelsL es rel ↔ ∃ e ∈ es, p ∈ allRels e (childRel rel (entryName e)) := by
  intro es
  induction es with
  | nil => simp [allRelsL]
  | cons e es ih =>
    intro rel
    rw [allRelsL]
    simp only [List.mem_append, ih, List.mem_cons]
    constructor
    · rintro (h | ⟨e', he', hp⟩)
      · exact ⟨e, Or.inl rfl, h⟩
      · exact ⟨e', Or.inr he', hp⟩
    · rintro ⟨e', he' | he', hp⟩
      · exact Or.inl (he' ▸ hp)
      · exact Or.inr ⟨e', he', hp⟩

/-- Every subtree path at `rel` lies in the `rel` family. -/
theorem allRels_inSub (e : FSEntry) : ∀ rel, rel ≠ "." →
    ∀ p ∈ allRels e rel, inSub rel p := by
  induction e using FSEntry.recMem with
  | hf n s t c =>
    intro rel _ p hp
    rw [allRels] at hp
    rcases List.mem_singleton.mp hp with rfl
    exact Or.inl rfl
  | hd n =>
    intro rel _ p hp
    rw [allRels] at hp
    rcases List.mem_singleton.mp hp with rfl
    exact Or.inl rfl
  | hD n es ihes =>
    intro rel hrel p hp
    rw [allRels] at hp
    rcases List.mem_cons.mp hp with rfl | hp'
    · exact Or.inl rfl
    · rcases mem_allRelsL.mp hp' with ⟨e', he', hpe⟩
      have hc : childRel rel (entryName e') = rel ++ "/" ++ entryName e' := by
        unfold childRel
        have : (rel == ".") = false := by
          simp only [beq_eq_false_iff_ne, ne_eq]
          exact hrel
        simp [this]
      have hsub := ihes e' he' (childRel rel (entryName e'))
        (by
          rw [hc]
          intro hcontra
          have h2 : ('/' : Char) ∈ (("." : String)).data := by
            rw [← hcontra, strData_append, strData_append]
            have h1 : ('/' : Char) ∈ ("/" : String).data := by decide
            exact List.mem_append.mpr (Or.inl (List.mem_append.mpr (Or.inr h1)))
          exact absurd h2 (by decide))
        p hpe
      rw [hc] at hsub
      exact Or.inr (inSub_step hsub)

/-- Paths in a well-named child family are neither `/` nor `.`. -/
theorem inSub_ne_special {n p : String} (hn : goodNameB n = true)
    (hp : inSub n p) : p ≠ "/" ∧ p ≠ "." := by
  obtain ⟨hne, hdot, hslash⟩ := goodNameB_spec hn
  rcases hp with rfl | ⟨t, rfl⟩
  · refine ⟨?_, hdot⟩
    intro h
    exact hslash (h ▸ (by decide : ('/' : Char) ∈ ("/" : String).data))
  · constructor
    · intro h
      have := congrArg String.data h
      rw [strData_append, strData_append] at this
      have hsl : ("/" : String).data = ['/'] := by decide
      rw [hsl] at this
      have hlen := congrArg List.length this
      simp only [List.length_append, List.length_singleton] at hlen
      have : n.data.length ≠ 0 := fun hz => hne (List.eq_nil_of_length_eq_zero hz)
      omega
    · intro h
      have := congrArg String.data h
      rw [strData_append, strData_append] at this
      have hsl : ("/" : String).data = ['/'] := by decide
      rw [hsl] at this
      have hdd : ("." : String).data = ['.'] := by decide
      rw [hdd] at this
      have hlen := congrArg List.length this
      simp only [List.length_append, List.length_singleton] at hlen
      have : n.data.length ≠ 0 := fun hz => hne (List.eq_nil_of_length_eq_zero hz)
      omega

/-- Members of the sorted listing are sorts of members of the original. -/
theorem mem_sortFSL : ∀ {es : List FSEntry} {x : FSEntry},
    x ∈ sortFSL es ↔ ∃ e ∈ es, x = sortFS e := by
  intro es
  induction es with
  | nil => simp [sortFSL]
  | cons e es ih =>
    intro x
    simp only [sortFSL, List.mem_cons, ih]
    constructor
    · rintro (rfl | ⟨e', he', rfl⟩)
      · exact ⟨e, Or.inl rfl, rfl⟩
      · exact ⟨e', Or.inr he', rfl⟩
    · rintro ⟨e', he' | he', rfl⟩
      · exact Or.inl (he' ▸ rfl)
      · exact Or.inr ⟨e', he', rfl⟩

/-- The sorted listing's basenames are those of the original. -/
theorem names_sortFSL : ∀ es : List FSEntry,
    (sortFSL es).map entryName = es.map entryName := by
  intro es
  induction es with
  | nil => rfl
  | cons e es ih => simp [sortFSL, entryName_sortFS, ih]

/-- Sorting preserves well-formedness. -/
theorem WFb_sortFS : ∀ e, WFb e = true → WFb (sortFS e) = true := by
  intro e
  induction e using FSEntry.recMem with
  | hf n s t c => intro h; exact h
  | hd n => intro h; exact h
  | hD n es ihes =>
    intro h
    rw [WFb] at h
    simp only [Bool.and_eq_true] at h
    obtain ⟨⟨hgn, hnd⟩, hwl⟩ := h
    rw [sortFS, WFb]
    simp only [Bool.and_eq_true]
    refine ⟨⟨hgn, ?_⟩, ?_⟩
    · rw [nodupNames_iff] at hnd ⊢
      have hperm : List.Perm ((stableSort childLe (sortFSL es)).map entryName)
          ((sortFSL es).map entryName) :=
        (stableSort_perm childLe (sortFSL es)).map entryName
      rw [names_sortFSL] at hperm
      exact hperm.nodup_iff.mpr hnd
    · rw [WFbL_iff]
      intro x hx
      rcases mem_sortFSL.mp (mem_stableSort.mp hx) with ⟨e', he', rfl⟩
      exact ihes e' he' ((WFbL_iff es).mp hwl e' he')

/-- Sorting does not change the set of relative paths of a tree. -/
theorem allRels_sortFS (e : FSEntry) : ∀ rel p,
    p ∈ allRels (sortFS e) rel ↔ p ∈ allRels e rel := by
  induction e using FSEntry.recMem with
  | hf n s t c => intro rel p; rfl
  | hd n => intro rel p; rfl
  | hD n es ihes =>
    intro rel p
    rw [sortFS, allRels, allRels]
    simp only [List.mem_cons]
    constructor
    · rintro (rfl | h)
      · exact Or.inl rfl
      · rcases mem_allRelsL.mp h with ⟨x, hx, hpx⟩
        rcases mem_sortFSL.mp (mem_stableSort.mp hx) with ⟨e', he', rfl⟩
        refine Or.inr (mem_allRelsL.mpr ⟨e', he', ?_⟩)
        rw [entryName_sortFS] at hpx
        exact (ihes e' he' (childRel rel (entryName e')) p).mp hpx
    · rintro (rfl | h)
      · exact Or.inl rfl
      · rcases mem_allRelsL.mp h with ⟨e', he', hpe⟩
        refine Or.inr (mem_allRelsL.mpr ⟨sortFS e',
          mem_stableSort.mpr (mem_sortFSL.mpr ⟨e', he', rfl⟩), ?_⟩)
        rw [entryName_sortFS]
        exact (ihes e' he' (childRel rel (entryName e')) p).mpr hpe

/-! ## Walk deltas and their path collections -/

/-- Hash returned by walking an entry (state-independent by `walk_state`). -/
def whash (cfg : ScanConfig) (e : FSEntry) (rel : String) : Option String :=
  (walk cfg e rel ScanState.empty).1

/-- Accumulator contribution of walking an entry. -/
def wdelta (cfg : ScanConfig) (e : FSEntry) (rel : String) : ScanState :=
  (walk cfg e rel ScanState.empty).2

/-- Child hashes collected over a listing. -/
def lhashes (cfg : ScanConfig) (es : List FSEntry) (rel : String) : List String :=
  (walkList cfg es rel ScanState.empty).1

/-- Child paths collected over a listing. -/
def lpaths (cfg : ScanConfig) (es : List FSEntry) (rel : String) : List String :=
  (walkList cfg es rel ScanState.empty).2.1

/-- Accumulator contribution of walking a listing. -/
def ldelta (cfg : ScanConfig) (es : List FSEntry) (rel : String) : ScanState :=
  (walkList cfg es rel ScanState.empty).2.2

/-- The listing delta decomposes entry by entry. -/
theorem ldelta_cons (cfg : ScanConfig) (e : FSEntry) (es : List FSEntry)
    (rel : String) :
    ldelta cfg (e :: es) rel =
      (wdelta cfg e (childRel rel (entryName e))).app (ldelta cfg es rel) := by
  unfold ldelta wdelta
  rw [walkList_snd,
    walkList_state_of cfg es (fun x _ => walk_state cfg x) rel
      (walk cfg e (childRel rel (entryName e)) ScanState.empty).2]

/-- Tree keys of a state. -/
def nodePaths (st : ScanState) : List String := st.tree.map Prod.fst

/-- Skip-record paths of a state. -/
def skipPaths (st : ScanState) : List String := st.skipped.map SkipRec.path

/-- File-record paths of a state. -/
def filePaths (st : ScanState) : List String := st.files.map FileRec.path

/-- Tree keys and skip paths together. -/
def nsPaths (st : ScanState) : List String := nodePaths st ++ skipPaths st

/-- Path collections distribute over state concatenation. -/
theorem nodePaths_app (s t : ScanState) :
    nodePaths (s.app t) = nodePaths s ++ nodePaths t := by
  simp [nodePaths, ScanState.app]

/-- Skip paths distribute over state concatenation. -/
theorem skipPaths_app (s t : ScanState) :
    skipPaths (s.app t) = skipPaths s ++ skipPaths t := by
  simp [skipPaths, ScanState.app]

/-- File paths distribute over state concatenation. -/
theorem filePaths_app (s t : ScanState) :
    filePaths (s.app t) = filePaths s ++ filePaths t := by
  simp [filePaths, ScanState.app]

/-- Truncated digests have twelve characters. -/
theorem strTake_digest_len (m : List Nat) :
    (strTake (sha256hexdigest m) 12).data.length = 12 := by
  show ((sha256hexdigest m).data.take 12).length = 12
  rw [List.length_take, sha256hexdigest_length]
  decide

/-- A hash returned by the walk is never the empty string. -/
theorem whash_ne_empty (cfg : ScanConfig) :
    ∀ e rel h, whash cfg e rel = some h → h.data ≠ [] := by
  intro e
  induction e using FSEntry.recMem with
  | hf n s t c =>
    intro rel h hw
    unfold whash at hw
    rw [walk.eq_def] at hw
    by_cases hig : should_ignore (entryName (FSEntry.file n s t c))
        (entryIsDir (FSEntry.file n s t c)) rel cfg.gitignore_patterns = true
    · simp [hig] at hw
    · simp only [hig, Bool.false_eq_true, if_false] at hw
      by_cases h1 : s > 1000000
      · simp [h1] at hw
      · simp only [h1, if_false] at hw
        by_cases h2 : t = true
        · subst h2
          simp only [Bool.not_true, Bool.false_eq_true, if_false] at hw
          rcases c with msg | bytes
          · simp at hw
          · by_cases h3 : cfg.tokensOf bytes > cfg.max_file_tokens
            · simp [h3] at hw
            · simp only [h3, if_false] at hw
              have hh : compute_hash bytes = h := by simpa using hw
              subst hh
              intro hnil
              have hlen12 : (compute_hash bytes).data.length = 12 :=
                strTake_digest_len bytes
              rw [hnil] at hlen12
              simp at hlen12
        · have h2' : t = false := by
            cases t
            · rfl
            · exact absurd rfl h2
          subst h2'
          simp [Bool.not_false] at hw
  | hd n =>
    intro rel h hw
    unfold whash at hw
    rw [walk.eq_def] at hw
    by_cases hig : should_ignore (entryName (FSEntry.dirDenied n))
        (entryIsDir (FSEntry.dirDenied n)) rel cfg.gitignore_patterns = true
    · simp [hig] at hw
    · by_cases hr : (rel != ".") = true <;> simp [hig, hr] at hw
  | hD n es ihes =>
    intro rel h hw
    unfold whash at hw
    rw [walk.eq_def] at hw
    by_cases hig : should_ignore (entryName (FSEntry.dir n es))
        (entryIsDir (FSEntry.dir n es)) rel cfg.gitignore_patterns = true
    · simp [hig] at hw
    · simp only [hig, Bool.false_eq_true, if_false] at hw
      have key : ∀ (st1 : ScanState) (kk : String),
          ((if (walkList cfg es rel st1).1.isEmpty = true then
              ((none : Option String), (walkList cfg es rel st1).2.2)
            else
              (some (compute_merkle_hash (walkList cfg es rel st1).1),
               { (walkList cfg es rel st1).2.2 with
                   tree := (walkList cfg es rel st1).2.2.tree ++
                     [(kk,
                       TNode.dirN (compute_merkle_hash (walkList cfg es rel st1).1)
                         (walkList cfg es rel st1).2.1)] })).1 = some h) →
          h.data ≠ [] := by
        intro st1 kk hw'
        by_cases hemp : (walkList cfg es rel st1).1.isEmpty = true
        · simp [hemp] at hw'
        · simp only [hemp, Bool.false_eq_true, if_false] at hw'
          have hh : compute_merkle_hash (walkList cfg es rel st1).1 = h := by
            simpa using hw'
          subst hh
          intro hnil
          have hlen12 : (compute_merkle_hash (walkList cfg es rel st1).1).data.length = 12 :=
            strTake_digest_len
              (strEncode (String.join (pySorted (walkList cfg es rel st1).1)))
          rw [hnil] at hlen12
          simp at hlen12
      by_cases hr : (rel != ".") = true
      · simp only [hr, if_true] at hw
        exact key { ScanState.empty with
          directories := ScanState.empty.directories ++ [rel] } rel hw
      · simp only [hr, Bool.false_eq_true, if_false] at hw
        exact key ScanState.empty "/" hw

/-- The returned hash does not depend on the threaded state. -/
theorem walk_fst (cfg : ScanConfig) (e : FSEntry) (rel : String) (st : ScanState) :
    (walk cfg e rel st).1 = whash cfg e rel := by
  rw [walk_state cfg e rel st]
  rfl

/-- The resulting state is the input state plus the delta. -/
theorem walk_snd (cfg : ScanConfig) (e : FSEntry) (rel : String) (st : ScanState) :
    (walk cfg e rel st).2 = st.app (wdelta cfg e rel) := by
  rw [walk_state cfg e rel st]
  rfl

/-- Collected hashes do not depend on the threaded state. -/
theorem walkList_fst (cfg : ScanConfig) (es : List FSEntry) (rel : String)
    (st : ScanState) : (walkList cfg es rel st).1 = lhashes cfg es rel := by
  rw [walkList_state_of cfg es (fun x _ => walk_state cfg x) rel st]
  rfl

/-- Collected paths do not depend on the threaded state. -/
theorem walkList_snd1 (cfg : ScanConfig) (es : List FSEntry) (rel : String)
    (st : ScanState) : (walkList cfg es rel st).2.1 = lpaths cfg es rel := by
  rw [walkList_state_of cfg es (fun x _ => walk_state cfg x) rel st]
  rfl

/-- The loop's resulting state is the input plus the listing delta. -/
theorem walkList_snd2 (cfg : ScanConfig) (es : List FSEntry) (rel : String)
    (st : ScanState) : (walkList cfg es rel st).2.2 = st.app (ldelta cfg es rel) := by
  rw [walkList_state_of cfg es (fun x _ => walk_state cfg x) rel st]
  rfl

/-- An ignored entry contributes nothing and returns no hash. -/
theorem wdelta_ignored (cfg : ScanConfig) (e : FSEntry) (rel : String)
    (hig : should_ignore (entryName e) (entryIsDir e) rel cfg.gitignore_patterns = true) :
    whash cfg e rel = none ∧ wdelta cfg e rel = ScanState.empty := by
  unfold whash wdelta
  rw [walk.eq_def]
  simp [hig]

/-- Hash and delta of a non-ignored directory away from the root. -/
theorem wdelta_dir (cfg : ScanConfig) (n : String) (es : List FSEntry) (rel : String)
    (hig : should_ignore n true rel cfg.gitignore_patterns = false)
    (hr : (rel != ".") = true) :
    whash cfg (.dir n es) rel =
      (if (lhashes cfg es rel).isEmpty = true then none
       else some (compute_merkle_hash (lhashes cfg es rel)))
    ∧ wdelta cfg (.dir n es) rel =
      (if (lhashes cfg es rel).isEmpty = true then
        ScanState.app { ScanState.empty with directories := [rel] } (ldelta cfg es rel)
      else
        { ScanState.app { ScanState.empty with directories := [rel] } (ldelta cfg es rel) with
            tree := (ScanState.app { ScanState.empty with directories := [rel] }
                (ldelta cfg es rel)).tree ++
              [(rel, TNode.dirN (compute_merkle_hash (lhashes cfg es rel))
                (lpaths cfg es rel))] }) := by
  unfold whash wdelta
  rw [walk.eq_def]
  simp only [entryName, entryIsDir, hig, Bool.false_eq_true, if_false, hr, if_true]
  rw [walkList_fst, walkList_snd1, walkList_snd2]
  by_cases hemp : (lhashes cfg es rel).isEmpty = true
  · simp only [hemp, if_true]
    refine ⟨?_, ?_⟩ <;> trivial
  · simp only [hemp, Bool.false_eq_true, if_false]
    refine ⟨?_, ?_⟩ <;> trivial

/-- Hash and delta of a non-ignored directory at the root. -/
theorem wdelta_dir_root (cfg : ScanConfig) (n : String) (es : List FSEntry)
    (hig : should_ignore n true "." cfg.gitignore_patterns = false) :
    whash cfg (.dir n es) "." =
      (if (lhashes cfg es ".").isEmpty = true then none
       else some (compute_merkle_hash (lhashes cfg es ".")))
    ∧ wdelta cfg (.dir n es) "." =
      (if (lhashes cfg es ".").isEmpty = true then ldelta cfg es "."
       else
        { ldelta cfg es "." with
            tree := (ldelta cfg es ".").tree ++
              [("/", TNode.dirN (compute_merkle_hash (lhashes cfg es "."))
                (lpaths cfg es "."))] }) := by
  unfold whash wdelta
  rw [walk.eq_def]
  simp only [entryName, entryIsDir, hig, Bool.false_eq_true, if_false]
  have hr : (("." : String) != ".") = true ↔ False := by simp
  simp only [bne_self_eq_false, Bool.false_eq_true, if_false]
  rw [walkList_fst, walkList_snd1, walkList_snd2, ScanState.empty_app]
  by_cases hemp : (lhashes cfg es ".").isEmpty = true
  · simp only [hemp, if_true]
    refine ⟨?_, ?_⟩ <;> trivial
  · simp only [hemp, Bool.false_eq_true, if_false]
    refine ⟨?_, ?_⟩ <;> trivial

/-- Interleaved concatenations stay duplicate-free when the two sources are
duplicate-free and mutually disjoint. -/
theorem nodup_app_four (nA sA nB sB : List String)
    (hA : (nA ++ sA).Nodup) (hB : (nB ++ sB).Nodup)
    (hdisj : ∀ p, p ∈ nA ++ sA → p ∈ nB ++ sB → False) :
    ((nA ++ nB) ++ (sA ++ sB)).Nodup := by
  have h1 : List.Perm ((nB ++ sA) ++ sB) ((sA ++ nB) ++ sB) :=
    List.perm_append_comm.append_right sB
  have h2 : List.Perm (nA ++ (nB ++ (sA ++ sB))) (nA ++ (sA ++ (nB ++ sB))) := by
    refine List.Perm.append_left nA ?_
    rw [← List.append_assoc, ← List.append_assoc]
    exact h1
  have hperm : List.Perm ((nA ++ nB) ++ (sA ++ sB)) ((nA ++ sA) ++ (nB ++ sB)) := by
    rw [List.append_assoc, List.append_assoc]
    exact h2
  exact hperm.nodup_iff.mpr (List.Nodup.append hA hB hdisj)

/-- Delta of a non-ignored file, by gate outcome. -/
theorem wdelta_file (cfg : ScanConfig) (n : String) (s : Nat) (t : Bool)
    (c : Except String (List Nat)) (rel : String)
    (hig : should_ignore n false rel cfg.gitignore_patterns = false) :
    wdelta cfg (.file n s t c) rel =
      if s > 1000000 then ⟨[], [], [⟨rel, "too_large", some s, none⟩], 0, []⟩
      else if !t then ⟨[], [], [⟨rel, "binary", none, none⟩], 0, []⟩
      else
        match c with
        | .error msg => ⟨[], [], [⟨rel, "read_error: " ++ msg, none, none⟩], 0, []⟩
        | .ok bytes =>
          if cfg.tokensOf bytes > cfg.max_file_tokens then
            ⟨[], [], [⟨rel, "too_many_tokens", none, some (cfg.tokensOf bytes)⟩], 0, []⟩
          else
            ⟨[⟨rel, cfg.tokensOf bytes, s, compute_hash bytes⟩], [], [],
              cfg.tokensOf bytes,
              [(rel, .fileN (compute_hash bytes) (cfg.tokensOf bytes))]⟩ := by
  unfold wdelta
  rw [walk.eq_def]
  simp only [entryName, entryIsDir, hig, Bool.false_eq_true, if_false]
  by_cases h1 : s > 1000000
  · simp [h1, ScanState.empty]
  · cases t
    · simp [h1, ScanState.empty]
    · rcases c with msg | bytes
      · simp [h1, ScanState.empty]
      · by_cases h3 : cfg.tokensOf bytes > cfg.max_file_tokens
        · simp [h1, h3, ScanState.empty]
        · simp [h1, h3, ScanState.empty]

/-- Empty listing contributes the empty delta. -/
theorem ldelta_nil (cfg : ScanConfig) (rel : String) :
    ldelta cfg [] rel = ScanState.empty := rfl

/-- Legal basename of any well-formed entry. -/
theorem WFb_goodName : ∀ {e : FSEntry}, WFb e = true → goodNameB (entryName e) = true := by
  intro e h
  cases e with
  | file n s t c => exact h
  | dirDenied n => exact h
  | dir n es =>
    rw [WFb] at h
    simp only [Bool.and_eq_true] at h
    exact h.1.1

/-- Joint paths distribute over state concatenation. -/
theorem nsPaths_app (a b : ScanState) :
    nsPaths (ScanState.app a b) =
      (nodePaths a ++ nodePaths b) ++ (skipPaths a ++ skipPaths b) := by
  simp [nsPaths, nodePaths_app, skipPaths_app]

/-- Per-entry structural invariant of the walk away from the root: the tree
keys and skip paths are duplicate-free, all contributed paths are relative
paths of subtree entries, every file record has a tree node, and the token
total is the sum over the file records. -/
def SubOk (cfg : ScanConfig) (e : FSEntry) : Prop :=
  WFb e = true → ∀ rel, rel ≠ "." →
    (nsPaths (wdelta cfg e rel)).Nodup
    ∧ (∀ p ∈ nsPaths (wdelta cfg e rel), p ∈ allRels e rel)
    ∧ (∀ p ∈ filePaths (wdelta cfg e rel), p ∈ nodePaths (wdelta cfg e rel))
    ∧ (wdelta cfg e rel).total_tokens =
        ((wdelta cfg e rel).files.map FileRec.tokens).sum

/-- Listing version of the structural invariant, at any parent. -/
theorem listOk (cfg : ScanConfig) : ∀ (es : List FSEntry),
    (∀ e ∈ es, SubOk cfg e) → WFbL es = true → nodupNames es = true →
    ∀ parentRel,
      (nsPaths (ldelta cfg es parentRel)).Nodup
      ∧ (∀ p ∈ nsPaths (ldelta cfg es parentRel),
          ∃ e' ∈ es, p ∈ allRels e' (childRel parentRel (entryName e')))
      ∧ (∀ p ∈ filePaths (ldelta cfg es parentRel),
          p ∈ nodePaths (ldelta cfg es parentRel))
      ∧ (ldelta cfg es parentRel).total_tokens =
          ((ldelta cfg es parentRel).files.map FileRec.tokens).sum := by
  intro es
  induction es with
  | nil =>
    intro _ _ _ parentRel
    rw [ldelta_nil]
    simp [nsPaths, nodePaths, skipPaths, filePaths, ScanState.empty]
  | cons e es ih =>
    intro hsub hwfl hnd parentRel
    rw [WFbL, Bool.and_eq_true] at hwfl
    have hwfe : WFb e = true := hwfl.1
    have hwfes : WFbL es = true := hwfl.2
    have hgood : goodNameB (entryName e) = true := WFb_goodName hwfe
    rw [nodupNames, Bool.and_eq_true] at hnd
    have hparts := hnd
    have hmemname : entryName e ∉ es.map entryName := by
      have h0 := hparts.1
      simp only [Bool.not_eq_eq_eq_not, Bool.not_true, List.contains, List.elem_eq_mem,
        decide_eq_false_iff_not] at h0
      exact h0
    have hndes := hparts.2
    have hrne : childRel parentRel (entryName e) ≠ "." := childRel_ne_dot hgood
    obtain ⟨ndA, domA, fA, tA⟩ :=
      hsub e (List.mem_cons_self e es) hwfe (childRel parentRel (entryName e)) hrne
    obtain ⟨ndB, domB, fB, tB⟩ :=
      ih (fun x hx => hsub x (List.mem_cons_of_mem e hx)) hwfes hndes parentRel
    rw [ldelta_cons]
    refine ⟨?_, ?_, ?_, ?_⟩
    · rw [nsPaths_app]
      refine nodup_app_four _ _ _ _ ndA ndB ?_
      intro p hpA hpB
      have h1 : p ∈ allRels e (childRel parentRel (entryName e)) := domA p hpA
      rcases domB p hpB with ⟨e', he', h2⟩
      have hgood' : goodNameB (entryName e') = true :=
        WFb_goodName ((WFbL_iff es).mp hwfes e' he')
      have hne : entryName e ≠ entryName e' := by
        intro hq
        exact hmemname (hq ▸ List.mem_map_of_mem entryName he')
      have hs1 := allRels_inSub e (childRel parentRel (entryName e)) hrne p h1
      have hrne' : childRel parentRel (entryName e') ≠ "." := childRel_ne_dot hgood'
      have hs2 := allRels_inSub e' (childRel parentRel (entryName e')) hrne' p h2
      exact inSub_disjoint parentRel hgood hgood' hne p hs1 hs2
    · intro p hp
      rw [nsPaths_app] at hp
      have hp' : p ∈ nsPaths (wdelta cfg e (childRel parentRel (entryName e)))
          ∨ p ∈ nsPaths (ldelta cfg es parentRel) := by
        simp only [nsPaths, List.mem_append] at hp ⊢
        tauto
      rcases hp' with h | h
      · exact ⟨e, List.mem_cons_self e es, domA p h⟩
      · rcases domB p h with ⟨e', he', h2⟩
        exact ⟨e', List.mem_cons_of_mem e he', h2⟩
    · intro p hp
      rw [filePaths_app] at hp
      rw [nodePaths_app]
      rcases List.mem_append.mp hp with h | h
      · exact List.mem_append.mpr (Or.inl (fA p h))
      · exact List.mem_append.mpr (Or.inr (fB p h))
    · show (ScanState.app _ _).total_tokens = _
      simp only [ScanState.app, List.map_append, List.sum_append]
      rw [tA, tB]

/-- Delta of a non-ignored permission-denied directory away from the root. -/
theorem wdelta_denied (cfg : ScanConfig) (n : String) (rel : String)
    (hig : should_ignore n true rel cfg.gitignore_patterns = false)
    (hr : (rel != ".") = true) :
    wdelta cfg (.dirDenied n) rel =
      ⟨[], [rel], [⟨rel, "permission_denied", none, none⟩], 0, []⟩ := by
  unfold wdelta
  rw [walk.eq_def]
  simp [entryName, entryIsDir, hig, hr, ScanState.empty]

/-- Delta of a non-ignored permission-denied directory at the root. -/
theorem wdelta_denied_root (cfg : ScanConfig) (n : String)
    (hig : should_ignore n true "." cfg.gitignore_patterns = false) :
    wdelta cfg (.dirDenied n) "." =
      ⟨[], [], [⟨".", "permission_denied", none, none⟩], 0, []⟩ := by
  unfold wdelta
  rw [walk.eq_def]
  simp [entryName, entryIsDir, hig, ScanState.empty]

/-- Every entry satisfies the structural invariant. -/
theorem subOk_all (cfg : ScanConfig) : ∀ e, SubOk cfg e := by
  intro e
  induction e using FSEntry.recMem with
  | hf n s t c =>
    intro hwf rel hrel
    by_cases hig : should_ignore n false rel cfg.gitignore_patterns = true
    · rw [(wdelta_ignored cfg (.file n s t c) rel hig).2]
      simp [nsPaths, nodePaths, skipPaths, filePaths, ScanState.empty]
    · have hig' : should_ignore n false rel cfg.gitignore_patterns = false := by
        revert hig
        cases should_ignore n false rel cfg.gitignore_patterns <;> simp
      rw [wdelta_file cfg n s t c rel hig']
      by_cases h1 : s > 1000000
      · simp [h1, nsPaths, nodePaths, skipPaths, filePaths, allRels]
      · cases t
        · simp [h1, nsPaths, nodePaths, skipPaths, filePaths, allRels]
        · rcases c with msg | bytes
          · simp [h1, nsPaths, nodePaths, skipPaths, filePaths, allRels]
          · by_cases h3 : cfg.tokensOf bytes > cfg.max_file_tokens
            · simp [h1, h3, nsPaths, nodePaths, skipPaths, filePaths, allRels]
            · simp [h1, h3, nsPaths, nodePaths, skipPaths, filePaths, allRels]
  | hd n =>
    intro hwf rel hrel
    by_cases hig : should_ignore n true rel cfg.gitignore_patterns = true
    · rw [(wdelta_ignored cfg (.dirDenied n) rel hig).2]
      simp [nsPaths, nodePaths, skipPaths, filePaths, ScanState.empty]
    · have hig' : should_ignore n true rel cfg.gitignore_patterns = false := by
        revert hig
        cases should_ignore n true rel cfg.gitignore_patterns <;> simp
      rw [wdelta_denied cfg n rel hig' (bne_iff_ne.mpr hrel)]
      simp [nsPaths, nodePaths, skipPaths, filePaths, allRels]
  | hD n es ihes =>
    intro hwf rel hrel
    rw [WFb, Bool.and_eq_true, Bool.and_eq_true] at hwf
    obtain ⟨⟨hgn, hnd⟩, hwl⟩ := hwf
    by_cases hig : should_ignore n true rel cfg.gitignore_patterns = true
    · rw [(wdelta_ignored cfg (.dir n es) rel hig).2]
      simp [nsPaths, nodePaths, skipPaths, filePaths, ScanState.empty]
    · have hig' : should_ignore n true rel cfg.gitignore_patterns = false := by
        revert hig
        cases should_ignore n true rel cfg.gitignore_patterns <;> simp
      obtain ⟨-, hwd⟩ := wdelta_dir cfg n es rel hig' (bne_iff_ne.mpr hrel)
      rw [hwd]
      obtain ⟨ndB, domB, fB, tB⟩ := listOk cfg es (fun x hx => ihes x hx) hwl hnd rel
      have hnsapp : nsPaths (ScanState.app { ScanState.empty with directories := [rel] }
          (ldelta cfg es rel)) = nsPaths (ldelta cfg es rel) := by
        rw [nsPaths_app]
        simp [nodePaths, skipPaths, ScanState.empty, nsPaths]
      have hgoods : ∀ e' ∈ es, goodNameB (entryName e') = true := by
        intro e' he'
        exact WFb_goodName ((WFbL_iff es).mp hwl e' he')
      have hsubs : ∀ p ∈ nsPaths (ldelta cfg es rel), p ≠ rel := by
        intro p hp
        rcases domB p hp with ⟨e', he', h2⟩
        have hc : childRel rel (entryName e') = rel ++ "/" ++ entryName e' := by
          unfold childRel
          have : (rel == ".") = false := beq_eq_false_iff_ne.mpr hrel
          simp [this]
        have hrne' : childRel rel (entryName e') ≠ "." := childRel_ne_dot (hgoods e' he')
        have hsub := allRels_inSub e' (childRel rel (entryName e')) hrne' p h2
        rw [hc] at hsub
        exact inSub_ne_parent hsub
      by_cases hemp : (lhashes cfg es rel).isEmpty = true
      · simp only [hemp, if_true]
        refine ⟨?_, ?_, ?_, ?_⟩
        · rw [hnsapp]
          exact ndB
        · intro p hp
          rw [hnsapp] at hp
          rcases domB p hp with ⟨e', he', h2⟩
          rw [allRels]
          exact List.mem_cons.mpr (Or.inr (mem_allRelsL.mpr ⟨e', he', h2⟩))
        · intro p hp
          rw [filePaths_app] at hp
          rw [nodePaths_app]
          simp only [filePaths, nodePaths, ScanState.empty, List.map_nil,
            List.nil_append] at hp ⊢
          exact fB p hp
        · show (ScanState.app _ _).total_tokens = _
          simp only [ScanState.app, List.map_append, List.sum_append]
          simpa [ScanState.empty] using tB
      · simp only [hemp, Bool.false_eq_true, if_false]
        refine ⟨?_, ?_, ?_, ?_⟩
        · show (nodePaths _ ++ skipPaths _).Nodup
          have hn1 : nodePaths { ScanState.app { ScanState.empty with directories := [rel] }
              (ldelta cfg es rel) with
              tree := (ScanState.app { ScanState.empty with directories := [rel] }
                  (ldelta cfg es rel)).tree ++
                [(rel, TNode.dirN (compute_merkle_hash (lhashes cfg es rel))
                  (lpaths cfg es rel))] } =
              nodePaths (ldelta cfg es rel) ++ [rel] := by
            simp [nodePaths, ScanState.app, ScanState.empty]
          have hs1 : skipPaths { ScanState.app { ScanState.empty with directories := [rel] }
              (ldelta cfg es rel) with
              tree := (ScanState.app { ScanState.empty with directories := [rel] }
                  (ldelta cfg es rel)).tree ++
                [(rel, TNode.dirN (compute_merkle_hash (lhashes cfg es rel))
                  (lpaths cfg es rel))] } =
              skipPaths (ldelta cfg es rel) := by
            simp [skipPaths, ScanState.app, ScanState.empty]
          rw [hn1, hs1]
          have h4 := nodup_app_four (nodePaths (ldelta cfg es rel))
            (skipPaths (ldelta cfg es rel)) [rel] [] ndB (by simp) ?_
          · simpa using h4
          · intro p hpB hpA
            have hprel : p = rel := by
              rcases List.mem_append.mp hpA with h | h
              · exact List.mem_singleton.mp h
              · exact absurd h (List.not_mem_nil p)
            exact hsubs p hpB hprel
        · intro p hp
          have hp' : p ∈ nsPaths (ldelta cfg es rel) ∨ p = rel := by
            simp only [nsPaths, nodePaths, skipPaths, ScanState.app, ScanState.empty,
              List.map_append, List.map_nil, List.nil_append, List.map_cons,
              List.mem_append, List.mem_singleton] at hp ⊢
            tauto
          rcases hp' with h | rfl
          · rcases domB p h with ⟨e', he', h2⟩
            rw [allRels]
            exact List.mem_cons.mpr (Or.inr (mem_allRelsL.mpr ⟨e', he', h2⟩))
          · rw [allRels]
            exact List.mem_cons.mpr (Or.inl rfl)
        · intro p hp
          have hp' : p ∈ filePaths (ldelta cfg es rel) := by
            simpa [filePaths, ScanState.app, ScanState.empty] using hp
          have := fB p hp'
          simp only [nodePaths, ScanState.app, ScanState.empty, List.map_append,
            List.map_nil, List.nil_append, List.map_cons, List.mem_append,
            List.mem_singleton]
          simp only [nodePaths] at this
          exact Or.inl (by simpa using this)
        · show (_ : ScanState).total_tokens = _
          simp only [ScanState.app, ScanState.empty, List.map_append, List.sum_append]
          simpa using tB

/-- The child-relative path under the root is the basename. -/
theorem childRel_dot (n : String) : childRel "." n = n := rfl

/-- Structural invariant of the root call: duplicate-free tree keys and skip
paths, every file record matched by a tree node, token totals summed from the
file records, skip paths drawn from the tree's relative paths, and — for a
directory root — tree keys that are either the root key `/` or relative paths
of proper descendants. -/
theorem rootOk (cfg : ScanConfig) (e : FSEntry) (hwf : WFb e = true) :
    (nsPaths (wdelta cfg e ".")).Nodup
    ∧ (∀ p ∈ filePaths (wdelta cfg e "."), p ∈ nodePaths (wdelta cfg e "."))
    ∧ (wdelta cfg e ".").total_tokens =
        ((wdelta cfg e ".").files.map FileRec.tokens).sum
    ∧ (∀ p ∈ skipPaths (wdelta cfg e "."), p ∈ allRels e ".")
    ∧ (entryIsDir e = true → ∀ p ∈ nodePaths (wdelta cfg e "."),
        p = "/" ∨ (p ∈ allRels e "." ∧ p ≠ "." ∧ p ≠ "/")) := by
  cases e with
  | file n s t c =>
    by_cases hig : should_ignore n false "." cfg.gitignore_patterns = true
    · rw [(wdelta_ignored cfg (.file n s t c) "." hig).2]
      simp [nsPaths, nodePaths, skipPaths, filePaths, ScanState.empty, entryIsDir]
    · have hig' : should_ignore n false "." cfg.gitignore_patterns = false := by
        revert hig
        cases should_ignore n false "." cfg.gitignore_patterns <;> simp
      rw [wdelta_file cfg n s t c "." hig']
      by_cases h1 : s > 1000000
      · simp [h1, nsPaths, nodePaths, skipPaths, filePaths, allRels, entryIsDir]
      · cases t
        · simp [h1, nsPaths, nodePaths, skipPaths, filePaths, allRels, entryIsDir]
        · rcases c with msg | bytes
          · simp [h1, nsPaths, nodePaths, skipPaths, filePaths, allRels, entryIsDir]
          · by_cases h3 : cfg.tokensOf bytes > cfg.max_file_tokens
            · simp [h1, h3, nsPaths, nodePaths, skipPaths, filePaths, allRels, entryIsDir]
            · simp [h1, h3, nsPaths, nodePaths, skipPaths, filePaths, allRels, entryIsDir]
  | dirDenied n =>
    by_cases hig : should_ignore n true "." cfg.gitignore_patterns = true
    · rw [(wdelta_ignored cfg (.dirDenied n) "." hig).2]
      simp [nsPaths, nodePaths, skipPaths, filePaths, ScanState.empty, entryIsDir]
    · have hig' : should_ignore n true "." cfg.gitignore_patterns = false := by
        revert hig
        cases should_ignore n true "." cfg.gitignore_patterns <;> simp
      rw [wdelta_denied_root cfg n hig']
      simp [nsPaths, nodePaths, skipPaths, filePaths, allRels, entryIsDir]
  | dir n es =>
    rw [WFb, Bool.and_eq_true, Bool.and_eq_true] at hwf
    obtain ⟨⟨hgn, hnd⟩, hwl⟩ := hwf
    by_cases hig : should_ignore n true "." cfg.gitignore_patterns = true
    · rw [(wdelta_ignored cfg (.dir n es) "." hig).2]
      simp [nsPaths, nodePaths, skipPaths, filePaths, ScanState.empty, entryIsDir]
    · have hig' : should_ignore n true "." cfg.gitignore_patterns = false := by
        revert hig
        cases should_ignore n true "." cfg.gitignore_patterns <;> simp
      obtain ⟨-, hwd⟩ := wdelta_dir_root cfg n es hig'
      rw [hwd]
      obtain ⟨ndB, domB, fB, tB⟩ := listOk cfg es (fun x _ => subOk_all cfg x) hwl hnd "."
      have hgoods : ∀ e' ∈ es, goodNameB (entryName e') = true := by
        intro e' he'
        exact WFb_goodName ((WFbL_iff es).mp hwl e' he')
      have hspec : ∀ p ∈ nsPaths (ldelta cfg es "."), p ≠ "/" ∧ p ≠ "." := by
        intro p hp
        rcases domB p hp with ⟨e', he', h2⟩
        have hrne' : childRel "." (entryName e') ≠ "." := childRel_ne_dot (hgoods e' he')
        have hsub := allRels_inSub e' (childRel "." (entryName e')) hrne' p h2
        rw [childRel_dot] at hsub
        exact inSub_ne_special (hgoods e' he') hsub
      have hdom : ∀ p ∈ nsPaths (ldelta cfg es "."), p ∈ allRels (FSEntry.dir n es) "." := by
        intro p hp
        rcases domB p hp with ⟨e', he', h2⟩
        rw [allRels]
        exact List.mem_cons.mpr (Or.inr (mem_allRelsL.mpr ⟨e', he', h2⟩))
      by_cases hemp : (lhashes cfg es ".").isEmpty = true
      · simp only [hemp, if_true]
        refine ⟨ndB, fB, tB, ?_, ?_⟩
        · intro p hp
          exact hdom p (List.mem_append.mpr (Or.inr hp))
        · intro _ p hp
          have hns : p ∈ nsPaths (ldelta cfg es ".") := List.mem_append.mpr (Or.inl hp)
          exact Or.inr ⟨hdom p hns, (hspec p hns).2, (hspec p hns).1⟩
      · simp only [hemp, Bool.false_eq_true, if_false]
        have hn1 : nodePaths { ldelta cfg es "." with
            tree := (ldelta cfg es ".").tree ++
              [("/", TNode.dirN (compute_merkle_hash (lhashes cfg es "."))
                (lpaths cfg es "."))] } =
            nodePaths (ldelta cfg es ".") ++ ["/"] := by
          simp [nodePaths]
        have hs1 : skipPaths { ldelta cfg es "." with
            tree := (ldelta cfg es ".").tree ++
              [("/", TNode.dirN (compute_merkle_hash (lhashes cfg es "."))
                (lpaths cfg es "."))] } =
            skipPaths (ldelta cfg es ".") := rfl
        refine ⟨?_, ?_, ?_, ?_, ?_⟩
        · show (nodePaths _ ++ skipPaths _).Nodup
          rw [hn1, hs1]
          have h4 := nodup_app_four (nodePaths (ldelta cfg es "."))
            (skipPaths (ldelta cfg es ".")) ["/"] [] ndB (by simp) ?_
          · simpa using h4
          · intro p hpB hpA
            have hprel : p = "/" := by
              rcases List.mem_append.mp hpA with h | h
              · exact List.mem_singleton.mp h
              · exact absurd h (List.not_mem_nil p)
            exact (hspec p hpB).1 hprel
        · intro p hp
          have hp' : p ∈ filePaths (ldelta cfg es ".") := hp
          rw [hn1]
          exact List.mem_append.mpr (Or.inl (fB p hp'))
        · exact tB
        · intro p hp
          rw [hs1] at hp
          exact hdom p (List.mem_append.mpr (Or.inr hp))
        · intro _ p hp
          rw [hn1] at hp
          rcases List.mem_append.mp hp with h | h
          · have hns : p ∈ nsPaths (ldelta cfg es ".") := List.mem_append.mpr (Or.inl h)
            exact Or.inr ⟨hdom p hns, (hspec p hns).2, (hspec p hns).1⟩
          · exact Or.inl (List.mem_singleton.mp h)

/-! ## Claims C3 and C4 -/

/-- Tree keys of a scan result. -/
def resNodePaths (r : ScanResult) : List String := r.tree.map Prod.fst

/-- Skip-record paths of a scan result. -/
def resSkipPaths (r : ScanResult) : List String := r.skipped.map SkipRec.path

/-- File-record paths of a scan result. -/
def resFilePaths (r : ScanResult) : List String := r.files.map FileRec.path

/-- The scan result in terms of the root walk's hash and delta. -/
theorem scan_directory_eq (cfg : ScanConfig) (root : FSEntry) :
    scan_directory cfg root =
      { files := (wdelta cfg (sortFS root) ".").files
        directories := (wdelta cfg (sortFS root) ".").directories
        total_tokens := (wdelta cfg (sortFS root) ".").total_tokens
        total_files := (wdelta cfg (sortFS root) ".").files.length
        skipped := (wdelta cfg (sortFS root) ".").skipped
        root_hash :=
          match whash cfg (sortFS root) "." with
          | some h => if h.data.isEmpty then "" else h
          | none => ""
        tree := (wdelta cfg (sortFS root) ".").tree } := rfl

/-- A permission-denied directory returns no hash at any relative path. -/
theorem whash_denied (cfg : ScanConfig) (n rel : String) :
    whash cfg (.dirDenied n) rel = none := by
  unfold whash
  rw [walk.eq_def]
  by_cases hig : should_ignore (entryName (FSEntry.dirDenied n))
      (entryIsDir (FSEntry.dirDenied n)) rel cfg.gitignore_patterns = true
  · simp [hig]
  · by_cases hr : (rel != ".") = true <;> simp [hig, hr]

/-- A root whose only child matches a built-in ignore pattern. -/
def fsIgn : FSEntry := .dir "r" [.file ".DS_Store" 1 true (.ok [0])]

/-- Counterexample to C3 as stated: the walk visits the child `.DS_Store` of
this root (its basename matches a built-in ignore pattern), yet the scan ends
with an empty tree and an empty skip list — the visited entry gets neither a
node nor a skip record, so skip and inclusion are not exhaustive. -/
theorem node_skip_counterexample :
    should_ignore ".DS_Store" false ".DS_Store" cfgW.gitignore_patterns = true
    ∧ (scan_directory cfgW fsIgn).tree = []
    ∧ (scan_directory cfgW fsIgn).skipped = [] := by
  refine ⟨by decide, by decide, by decide⟩

/-- C3 (amended): over a well-formed root, node inclusion and skipping are
mutually exclusive and at-most-once — the tree keys and the skip paths are
jointly duplicate-free — every file record's path has a tree node and no skip
record, and skipped entries contribute nothing to the totals: the token total
is the sum over the (node-bearing) file records and the file total counts
exactly the file records. Exhaustiveness does not hold: an ignored entry, or
a directory none of whose descendants produced a hash, gets neither. -/
theorem scan_node_skip_partition (cfg : ScanConfig) (root : FSEntry)
    (hwf : WFb root = true) :
    (resNodePaths (scan_directory cfg root) ++
      resSkipPaths (scan_directory cfg root)).Nodup
    ∧ (∀ p ∈ resFilePaths (scan_directory cfg root),
        p ∈ resNodePaths (scan_directory cfg root))
    ∧ (∀ p ∈ resFilePaths (scan_directory cfg root),
        p ∉ resSkipPaths (scan_directory cfg root))
    ∧ (scan_directory cfg root).total_tokens =
        ((scan_directory cfg root).files.map FileRec.tokens).sum
    ∧ (scan_directory cfg root).total_files =
        (scan_directory cfg root).files.length := by
  obtain ⟨hnd, hfB, htok, -, -⟩ := rootOk cfg (sortFS root) (WFb_sortFS root hwf)
  have hnd' : (resNodePaths (scan_directory cfg root) ++
      resSkipPaths (scan_directory cfg root)).Nodup := hnd
  have hfB' : ∀ p ∈ resFilePaths (scan_directory cfg root),
      p ∈ resNodePaths (scan_directory cfg root) := hfB
  have htok' : (scan_directory cfg root).total_tokens =
      ((scan_directory cfg root).files.map FileRec.tokens).sum := htok
  refine ⟨hnd', hfB', ?_, htok', rfl⟩
  intro p hpf hps
  exact (List.nodup_append.mp hnd').2.2 (hfB' p hpf) hps

/-- A well-formed root holding one small text file. -/
def fsC3 : FSEntry :=
  .dir "r" [.file "a.txt" 1 true (.ok [97]), .file "b.bin" 5 false (.ok [0, 1])]

/-- Witness for C3 (amended) at a scan with one node-bearing file and one
binary skip. -/
theorem scan_node_skip_partition_witness :
    WFb fsC3 = true
    ∧ (resNodePaths (scan_directory cfgW fsC3) ++
        resSkipPaths (scan_directory cfgW fsC3)).Nodup
    ∧ (scan_directory cfgW fsC3).total_tokens =
        ((scan_directory cfgW fsC3).files.map FileRec.tokens).sum :=
  ⟨by decide, (scan_node_skip_partition cfgW fsC3 (by decide)).1,
   (scan_node_skip_partition cfgW fsC3 (by decide)).2.2.2.1⟩

/-- A well-formed directory root holding one small text file. -/
def fsC4 : FSEntry := .dir "r" [.file "a.txt" 1 true (.ok [97])]

set_option maxRecDepth 100000 in
/-- Counterexample to C4 as stated: scanning a root with one text file keys
the root's own node under `/`, not under the empty or `.` path — the tree
keys are exactly `a.txt` and `/`, and the root hash is non-empty. -/
theorem root_key_counterexample :
    resNodePaths (scan_directory cfgW fsC4) = ["a.txt", "/"]
    ∧ "." ∉ resNodePaths (scan_directory cfgW fsC4)
    ∧ "" ∉ resNodePaths (scan_directory cfgW fsC4)
    ∧ (scan_directory cfgW fsC4).root_hash ≠ "" := by
  refine ⟨by decide, by decide, by decide, by decide⟩

/-- C4 (amended): over a well-formed directory root, every tree key is the
root key `/` or the root-relative path of a proper descendant (never `.` and
never the empty string); the hash stored under `/` equals the snapshot's
`root_hash`; and whenever `root_hash` is non-empty a node keyed `/` exists. -/
theorem root_key_slash (cfg : ScanConfig) (root : FSEntry)
    (hwf : WFb root = true) (hdir : entryIsDir root = true) :
    (∀ p ∈ resNodePaths (scan_directory cfg root),
        p = "/" ∨ (p ∈ allRels root "." ∧ p ≠ "." ∧ p ≠ "/"))
    ∧ (∀ nd, ("/", nd) ∈ (scan_directory cfg root).tree →
        TNode.hashOf nd = (scan_directory cfg root).root_hash)
    ∧ ((scan_directory cfg root).root_hash ≠ "" →
        ∃ nd, ("/", nd) ∈ (scan_directory cfg root).tree) := by
  have hfirst : ∀ p ∈ resNodePaths (scan_directory cfg root),
      p = "/" ∨ (p ∈ allRels root "." ∧ p ≠ "." ∧ p ≠ "/") := by
    have h5 := (rootOk cfg (sortFS root) (WFb_sortFS root hwf)).2.2.2.2
    have hdir' : entryIsDir (sortFS root) = true := by
      rw [entryIsDir_sortFS]
      exact hdir
    intro p hp
    have hp' : p ∈ nodePaths (wdelta cfg (sortFS root) ".") := hp
    rcases h5 hdir' p hp' with h | ⟨h1, h2, h3⟩
    · exact Or.inl h
    · exact Or.inr ⟨(allRels_sortFS root "." p).mp h1, h2, h3⟩
  have hpair : (∀ nd, ("/", nd) ∈ (scan_directory cfg root).tree →
        TNode.hashOf nd = (scan_directory cfg root).root_hash)
      ∧ ((scan_directory cfg root).root_hash ≠ "" →
        ∃ nd, ("/", nd) ∈ (scan_directory cfg root).tree) := by
    cases root with
    | file n s t c => simp [entryIsDir] at hdir
    | dirDenied n =>
      have hs : sortFS (FSEntry.dirDenied n) = FSEntry.dirDenied n := rfl
      have hH : (scan_directory cfg (FSEntry.dirDenied n)).root_hash = "" := by
        rw [scan_directory_eq]
        simp only [hs, whash_denied]
      have hT : (scan_directory cfg (FSEntry.dirDenied n)).tree = [] := by
        rw [scan_directory_eq]
        simp only [hs]
        by_cases hig : should_ignore n true "." cfg.gitignore_patterns = true
        · rw [(wdelta_ignored cfg (FSEntry.dirDenied n) "." hig).2]
          rfl
        · have hig' : should_ignore n true "." cfg.gitignore_patterns = false := by
            revert hig
            cases should_ignore n true "." cfg.gitignore_patterns <;> simp
          rw [wdelta_denied_root cfg n hig']
      constructor
      · intro nd hnd
        rw [hT] at hnd
        exact absurd hnd (List.not_mem_nil _)
      · intro hne
        exact absurd hH hne
    | dir n es =>
      set es' := stableSort childLe (sortFSL es) with hes
      have hs : sortFS (FSEntry.dir n es) = FSEntry.dir n es' := rfl
      by_cases hig : should_ignore n true "." cfg.gitignore_patterns = true
      · obtain ⟨h0w, h0d⟩ := wdelta_ignored cfg (FSEntry.dir n es') "." hig
        have hH : (scan_directory cfg (FSEntry.dir n es)).root_hash = "" := by
          rw [scan_directory_eq]
          simp only [hs, h0w]
        have hT : (scan_directory cfg (FSEntry.dir n es)).tree = [] := by
          rw [scan_directory_eq]
          simp only [hs, h0d]
          rfl
        constructor
        · intro nd hnd
          rw [hT] at hnd
          exact absurd hnd (List.not_mem_nil _)
        · intro hne
          exact absurd hH hne
      · have hig' : should_ignore n true "." cfg.gitignore_patterns = false := by
          revert hig
          cases should_ignore n true "." cfg.gitignore_patterns <;> simp
        obtain ⟨hwh, hwd⟩ := wdelta_dir_root cfg n es' hig'
        have hwf' : WFb (FSEntry.dir n es') = true := by
          have h1 := WFb_sortFS (FSEntry.dir n es) hwf
          rw [hs] at h1
          exact h1
        rw [WFb, Bool.and_eq_true, Bool.and_eq_true] at hwf'
        obtain ⟨⟨hgn, hndn⟩, hwl⟩ := hwf'
        obtain ⟨-, domB, -, -⟩ := listOk cfg es' (fun x _ => subOk_all cfg x) hwl hndn "."
        have hnotkey : "/" ∉ nodePaths (ldelta cfg es' ".") := by
          intro hmem
          have hns : ("/" : String) ∈ nsPaths (ldelta cfg es' ".") :=
            List.mem_append.mpr (Or.inl hmem)
          rcases domB "/" hns with ⟨e', he', h2⟩
          have hgood' : goodNameB (entryName e') = true :=
            WFb_goodName ((WFbL_iff es').mp hwl e' he')
          have hrne' : childRel "." (entryName e') ≠ "." := childRel_ne_dot hgood'
          have hsub := allRels_inSub e' (childRel "." (entryName e')) hrne' "/" h2
          rw [childRel_dot] at hsub
          exact (inSub_ne_special hgood' hsub).1 rfl
        by_cases hemp : (lhashes cfg es' ".").isEmpty = true
        · have hH : (scan_directory cfg (FSEntry.dir n es)).root_hash = "" := by
            rw [scan_directory_eq]
            simp only [hs, hwh, hemp, if_true]
          have hT : (scan_directory cfg (FSEntry.dir n es)).tree =
              (ldelta cfg es' ".").tree := by
            rw [scan_directory_eq]
            simp only [hs, hwd, hemp, if_true]
          constructor
          · intro nd hnd
            rw [hT] at hnd
            exact absurd (List.mem_map_of_mem Prod.fst hnd) hnotkey
          · intro hne
            exact absurd hH hne
        · have hHead : (compute_merkle_hash (lhashes cfg es' ".")).data.isEmpty = false := by
            have hlen : (compute_merkle_hash (lhashes cfg es' ".")).data.length = 12 :=
              strTake_digest_len _
            cases hE : (compute_merkle_hash (lhashes cfg es' ".")).data with
            | nil =>
              rw [hE] at hlen
              simp at hlen
            | cons a l => rfl
          have hH : (scan_directory cfg (FSEntry.dir n es)).root_hash =
              compute_merkle_hash (lhashes cfg es' ".") := by
            rw [scan_directory_eq]
            simp only [hs, hwh, hemp, Bool.false_eq_true, if_false, hHead]
          have hT : (scan_directory cfg (FSEntry.dir n es)).tree =
              (ldelta cfg es' ".").tree ++
                [("/", TNode.dirN (compute_merkle_hash (lhashes cfg es' "."))
                  (lpaths cfg es' "."))] := by
            rw [scan_directory_eq]
            simp only [hs, hwd, hemp, Bool.false_eq_true, if_false]
          constructor
          · intro nd hnd
            rw [hT] at hnd
            rcases List.mem_append.mp hnd with hL | hR
            · exact absurd (List.mem_map_of_mem Prod.fst hL) hnotkey
            · have h1 := List.mem_singleton.mp hR
              have h2 : nd = TNode.dirN (compute_merkle_hash (lhashes cfg es' "."))
                  (lpaths cfg es' ".") := congrArg Prod.snd h1
              rw [h2, hH]
              rfl
          · intro _
            refine ⟨TNode.dirN (compute_merkle_hash (lhashes cfg es' "."))
              (lpaths cfg es' "."), ?_⟩
            rw [hT]
            exact List.mem_append.mpr (Or.inr (List.mem_singleton.mpr rfl))
  exact ⟨hfirst, hpair.1, hpair.2⟩

set_option maxRecDepth 100000 in
/-- Witness for C4 (amended): on a concrete scan, the node keyed `/` carries
exactly the snapshot's root hash. -/
theorem root_key_slash_witness :
    WFb fsC4 = true ∧ entryIsDir fsC4 = true
    ∧ TNode.hashOf (TNode.dirN (compute_merkle_hash [compute_hash [97]]) ["a.txt"]) =
        (scan_directory cfgW fsC4).root_hash :=
  ⟨by decide, by decide,
   (root_key_slash cfgW fsC4 (by decide) (by decide)).2.1
     (TNode.dirN (compute_merkle_hash [compute_hash [97]]) ["a.txt"]) (by decide)⟩

end Scan
